import Mathlib

/-!
Verification of the task-execution / workflow core of the Video-Analysis-System
repository.

The development shallowly embeds the two central Python components:

* `src/video_agent/agent_executor.py` — `VideoAgentExecutor`, a bounded-concurrency
  task executor (`process_video`, `_process_queue`, `_process_single_task`,
  `batch_process_videos`, `start`, `stop`, the status accessors), together with
  the `ProcessingTask` record.
* `src/host_agent/main.py` — `HostAgent.process_video_workflow`,
  `HostAgent.batch_process_videos` and the workflow registry `active_workflows`.

Conventions of the embedding:

* Python status strings (`"pending"`, `"processing"`, `"completed"`, `"failed"`)
  are represented by the four-valued enumeration `TStatus`.
* `uuid.uuid4()` (the task-id supply) is modelled as a fresh-nonce counter
  `nextId` owned by the executor state: each call returns the current counter
  value and increments it.  `time.time()` is modelled as a monotone counter
  `now`.
* The asynchronous behaviour of the executor is modelled as a small-step
  transition relation `Step`.  asyncio is single-threaded and switches only at
  `await` points, so each maximal await-free region of the Python code is one
  atomic step: `process_video` (submit), one dispatcher dequeue, a worker's
  semaphore acquisition together with the `status = "processing"` write that
  immediately follows it, and the terminal update (status, timestamp,
  result/error and the semaphore release on `async with` exit).
* The network-bound work done for one task (`VideoAgent.process_video`) is an
  external collaborator; it is a parameter `backend : String → Except String R`
  of the step relation.  Exceptions become `Except.error`.
-/

namespace VAS

deriving instance DecidableEq for Except

/-! ### `VideoAgent._extract_video_id` (src/video_agent/agent.py lines 98-106)

Python `s.split(sep)` for a non-empty `sep` splits at each non-overlapping
occurrence of `sep`, scanning left to right; `sep in s` holds iff that split
yields more than one part.  `splitChars`/`pySplit` implement exactly that
specification by structural recursion (the fuel is the text length; every
iteration consumes at least one character), so they evaluate on concrete
inputs. -/

/-- Whether `sep` occurs at the head of `hay`. -/
def headMatches : List Char → List Char → Bool
  | [], _ => true
  | _ :: _, [] => false
  | c :: cs, d :: ds => c == d && headMatches cs ds

/-- Python `hay.split(sep)` on character lists, for non-empty `sep`:
`acc` holds the current token, reversed. -/
def splitChars (sep : List Char) :
    Nat → List Char → List Char → List (List Char)
  | _, acc, [] => [acc.reverse]
  | 0, acc, rest => [acc.reverse ++ rest]
  | fuel + 1, acc, c :: rest =>
    if headMatches sep (c :: rest) then
      acc.reverse :: splitChars sep fuel [] (List.drop (sep.length - 1) rest)
    else
      splitChars sep fuel (c :: acc) rest

/-- Python `s.split(sep)` for a non-empty `sep`. -/
def pySplit (s sep : String) : List String :=
  (splitChars sep.data s.data.length [] s.data).map (fun l => ⟨l⟩)

/-- Python `needle in hay` for a non-empty `needle`. -/
def strContains (hay needle : String) : Bool :=
  (pySplit hay needle).length > 1

/-- `VideoAgent._extract_video_id`: `url.split("v=")[1].split("&")[0]` on the
`youtube.com/watch?v=` branch, `url.split("youtu.be/")[1].split("?")[0]` on the
`youtu.be/` branch, otherwise `ValueError(f"Invalid YouTube URL: {video_url}")`,
rendered as `Except.error`. -/
def extract_video_id (video_url : String) : Except String String :=
  if strContains video_url "youtube.com/watch?v=" then
    .ok (((pySplit (((pySplit video_url "v=").getD 1 "")) "&").getD 0 ""))
  else if strContains video_url "youtu.be/" then
    .ok (((pySplit (((pySplit video_url "youtu.be/").getD 1 "")) "?").getD 0 ""))
  else
    .error ("Invalid YouTube URL: " ++ video_url)

/-- `VideoMetadata` (agent.py lines 22-31). -/
structure VideoMetadata where
  title : String
  description : String
  duration : Nat
  view_count : Nat
  upload_date : String
  channel_name : String
  video_id : String
deriving DecidableEq, Repr

/-- `VideoProcessingResult` (agent.py lines 34-41).  The floating-point
`processing_time` field (never read, defaulted to `0.0`) is omitted. -/
structure VideoProcessingResult where
  video_url : String
  metadata : VideoMetadata
  transcript : String
  video_file_path : Option String
deriving DecidableEq, Repr

/-- `VideoAgent.process_video` (agent.py lines 62-96): extract the video id,
fetch metadata, extract the transcript, build the result.  The two network
calls are oracle parameters: `meta` models `_get_video_metadata` (which raises
on an unknown id, hence `Except`), and `trans` models `_extract_transcript`
(which catches its own failures and returns `""`, hence total). -/
def agent_process_video (meta : String → Except String VideoMetadata)
    (trans : String → String) (video_url : String) :
    Except String VideoProcessingResult :=
  match extract_video_id video_url with
  | .error e => .error e
  | .ok vid =>
    match meta vid with
    | .error e => .error e
    | .ok m => .ok ⟨video_url, m, trans vid, none⟩

/-! ### The task data model (agent_executor.py lines 14-23) -/

/-- The four task status strings of `ProcessingTask.status`. -/
inductive TStatus where
  | pending
  | processing
  | completed
  | failed
deriving DecidableEq, Repr

/-- `ProcessingTask` (agent_executor.py lines 14-23), parametric in the result
payload (`VideoProcessingResult` in the source). -/
structure ProcessingTask (R : Type) where
  task_id : Nat
  video_url : String
  status : TStatus
  created_at : Nat
  completed_at : Option Nat
  result : Option R
  error : Option String
deriving DecidableEq, Repr

/-- Lookup in an insertion-ordered task list keyed by `task_id`
(the Python `self.tasks` dict). -/
def findT {R : Type} (l : List (ProcessingTask R)) (tid : Nat) :
    Option (ProcessingTask R) :=
  l.find? (fun t => t.task_id == tid)

/-- Point update of the task with identifier `tid` (in Python the worker
mutates the shared `ProcessingTask` object in place). -/
def updT {R : Type} (l : List (ProcessingTask R)) (tid : Nat)
    (f : ProcessingTask R → ProcessingTask R) : List (ProcessingTask R) :=
  l.map (fun t => if t.task_id == tid then f t else t)

/-! ### The executor state (agent_executor.py lines 26-44)

`tasks`, `queue`, `sem` and `running` are the fields `self.tasks`,
`self.task_queue`, `self.semaphore` and `self._running`.  `waiting` and
`active` record the in-flight worker coroutines spawned by
`_process_queue` via `asyncio.create_task(self._process_single_task(task))`:
a worker is `waiting` from its creation until it acquires a semaphore permit,
and `active` while it holds the permit.  `nextId` and `now` model the
`uuid.uuid4()` and `time.time()` calls (see the file header). -/
structure ExecState (R : Type) where
  tasks : List (ProcessingTask R)
  queue : List Nat
  waiting : List Nat
  active : List Nat
  sem : Nat
  running : Bool
  nextId : Nat
  now : Nat
deriving DecidableEq, Repr

/-- The freshly constructed executor: `VideoAgentExecutor.__init__` with
`max_concurrent_tasks = N`. -/
def initState (R : Type) (N : Nat) : ExecState R :=
  ⟨[], [], [], [], N, false, 0, 0⟩

/-- `VideoAgentExecutor.process_video` (lines 70-94): make a fresh id, build a
`pending` task, store it in `self.tasks`, enqueue it, return the id. -/
def process_video {R : Type} (s : ExecState R) (url : String) :
    ExecState R × Nat :=
  let tid := s.nextId
  let t : ProcessingTask R := ⟨tid, url, .pending, s.now, none, none, none⟩
  ({ s with
      tasks := s.tasks ++ [t]
      queue := s.queue ++ [tid]
      nextId := s.nextId + 1
      now := s.now + 1 }, tid)

/-- `VideoAgentExecutor.get_task_status` (lines 96-98). -/
def get_task_status {R : Type} (s : ExecState R) (tid : Nat) :
    Option (ProcessingTask R) :=
  findT s.tasks tid

/-- `VideoAgentExecutor.get_all_tasks` (lines 100-102). -/
def get_all_tasks {R : Type} (s : ExecState R) : List (ProcessingTask R) :=
  s.tasks

/-- `VideoAgentExecutor.get_queue_size` (lines 176-178). -/
def get_queue_size {R : Type} (s : ExecState R) : Nat :=
  s.queue.length

/-- `VideoAgentExecutor.get_active_tasks_count` (lines 180-182): the number of
tasks whose status is `"processing"`. -/
def get_active_tasks_count {R : Type} (s : ExecState R) : Nat :=
  (s.tasks.filter (fun t => t.status == .processing)).length

/-- The task status visible through `get_task_status`. -/
def statusOf {R : Type} (s : ExecState R) (tid : Nat) : Option TStatus :=
  (findT s.tasks tid).map (fun t => t.status)

/-- `VideoAgentExecutor.start` (lines 46-53): set `_running` and (re)spawn the
dispatcher; a no-op when already running. -/
def startRun {R : Type} (s : ExecState R) : ExecState R :=
  { s with running := true }

/-- `VideoAgentExecutor.stop` (lines 55-68): clear `_running` and cancel the
dispatcher coroutine.  Worker coroutines (`waiting`/`active`) are not
cancelled and the semaphore is untouched. -/
def stopRun {R : Type} (s : ExecState R) : ExecState R :=
  { s with running := false }

/-- One dispatcher iteration of `_process_queue` (lines 104-117) that found a
queued task: dequeue it and spawn a worker coroutine for it.  The worker has
not yet acquired a permit, so the task stays `pending`. -/
def dispatchRun {R : Type} (s : ExecState R) : ExecState R :=
  match s.queue with
  | [] => s
  | tid :: rest => { s with queue := rest, waiting := s.waiting ++ [tid] }

/-- The `task.status = "processing"` write at line 124. -/
def procTask {R : Type} (t : ProcessingTask R) : ProcessingTask R :=
  { t with status := .processing }

/-- A worker coroutine entering `async with self.semaphore` in
`_process_single_task` (line 121) and executing up to the first `await` inside
the block: one permit is consumed and the task status becomes `processing`
(line 124). -/
def acquireRun {R : Type} (s : ExecState R) (tid : Nat) : ExecState R :=
  { s with
      waiting := s.waiting.erase tid
      active := s.active ++ [tid]
      sem := s.sem - 1
      tasks := updT s.tasks tid procTask }

/-- The terminal update of `_process_single_task` (lines 128-143): on the
backend's normal return the task becomes `completed` with its result stored,
on an exception `failed` with the stringified error; either way
`completed_at` is set (to `time.time()`, the clock value `nowv`). -/
def finishTask {R : Type} (backend : String → Except String R) (nowv : Nat)
    (t : ProcessingTask R) : ProcessingTask R :=
  match backend t.video_url with
  | .ok r =>
    { t with status := .completed, completed_at := some nowv, result := some r }
  | .error e =>
    { t with status := .failed, completed_at := some nowv, error := some e }

/-- A worker coroutine resuming after `await self.agent.process_video`:
the terminal update runs and the permit is released when the `async with`
block exits. -/
def finishRun {R : Type} (backend : String → Except String R)
    (s : ExecState R) (tid : Nat) : ExecState R :=
  { s with
      active := s.active.erase tid
      sem := s.sem + 1
      now := s.now + 1
      tasks := updT s.tasks tid (finishTask backend s.now) }

/-- `VideoAgentExecutor.batch_process_videos` (lines 158-174): submit each URL
in order and collect the returned task ids. -/
def batch_process_videos {R : Type} (s : ExecState R) (urls : List String) :
    ExecState R × List Nat :=
  match urls with
  | [] => (s, [])
  | url :: rest =>
    let p := process_video s url
    let q := batch_process_videos p.1 rest
    (q.1, p.2 :: q.2)

/-! ### The small-step semantics of the executor

Each constructor is one await-free region of the Python code (see the file
header).  `backend` is the external `VideoAgent.process_video` collaborator. -/

/-- One atomic step of the executor. -/
inductive Step {R : Type} (backend : String → Except String R) :
    ExecState R → ExecState R → Prop where
  | submit (s : ExecState R) (url : String) :
      Step backend s (process_video s url).1
  | start (s : ExecState R) :
      Step backend s (startRun s)
  | stop (s : ExecState R) :
      Step backend s (stopRun s)
  | dispatch (s : ExecState R) (hr : s.running = true) (hq : s.queue ≠ []) :
      Step backend s (dispatchRun s)
  | acquire (s : ExecState R) (tid : Nat) (hw : tid ∈ s.waiting)
      (hs : 0 < s.sem) :
      Step backend s (acquireRun s tid)
  | finish (s : ExecState R) (tid : Nat) (ha : tid ∈ s.active) :
      Step backend s (finishRun backend s tid)

/-- The states an executor with bound `N` can reach from construction. -/
def Reachable {R : Type} (backend : String → Except String R) (N : Nat)
    (s : ExecState R) : Prop :=
  Relation.ReflTransGen (Step backend) (initState R N) s

/-- Executor traces, most recent state first: `RTrace backend N (sₖ :: … :: s₀)`
means `s₀` is the fresh executor and each `sᵢ₊₁` follows from `sᵢ` by one
step.  The chronological trace is the reversal. -/
inductive RTrace {R : Type} (backend : String → Except String R) (N : Nat) :
    List (ExecState R) → Prop where
  | init : RTrace backend N [initState R N]
  | step {s s' : ExecState R} {rest : List (ExecState R)}
      (tr : RTrace backend N (s :: rest)) (hs : Step backend s s') :
      RTrace backend N (s' :: s :: rest)

/-- The statuses a task exhibits along a trace, in chronological order; states
from before the task was submitted contribute nothing. -/
def obsOf {R : Type} (tr : List (ExecState R)) (tid : Nat) : List TStatus :=
  tr.reverse.filterMap (fun s => statusOf s tid)

/-! ### The HostAgent workflow orchestrator (src/host_agent/main.py)

`process_video_workflow` is a straight-line sequence of homogeneous step
blocks inside one `try`: call the step, append a `"completed"` step record,
store the result under the step's key.  `runStepsLoop` is that block pattern
over an explicit step list; the code's two concrete steps
(`video_processing` via `video_agent.process_video` and `content_analysis`
via `video_agent.analyze_video_content`, both network-bound, modelled as
oracles) are the list `workflowSteps`.  The `except` clause sets
`status = "failed"` and `error` and re-raises (`Except.error`); it appends no
step record. -/

/-- One entry of a workflow's `steps` list, e.g.
`{"name": "video_processing", "status": "completed", "result": ...}`. -/
structure StepRecord (V : Type) where
  name : String
  status : TStatus
  result : V
deriving DecidableEq, Repr

/-- The workflow dict built by `process_video_workflow` (lines 81-87):
`results` keeps insertion order like a Python dict. -/
structure Workflow (V : Type) where
  id : String
  video_url : String
  status : TStatus
  steps : List (StepRecord V)
  results : List (String × V)
  error : Option String
deriving DecidableEq, Repr

/-- `HostAgent.active_workflows` (line 40), in insertion order. -/
structure HostState (V : Type) where
  active_workflows : List (Workflow V)
deriving DecidableEq, Repr

/-- `f"workflow_{n}"`. -/
def mkWorkflowId (n : Nat) : String :=
  "workflow_" ++ Nat.repr n

/-- Python dict assignment `self.active_workflows[wid] = workflow`: replace an
existing entry with the same id, otherwise append. -/
def storeWorkflow {V : Type} (l : List (Workflow V)) (w : Workflow V) :
    List (Workflow V) :=
  if l.any (fun x => x.id == w.id) then
    l.map (fun x => if x.id == w.id then w else x)
  else l ++ [w]

/-- The `try` body of `process_video_workflow` (lines 91-139) over an explicit
list of steps `(name, results-key, call)`: on a step's normal return append a
`completed` record and the keyed result and continue; once every step is done
set `status = "completed"`; on a step's exception set `status = "failed"` and
`error` and stop, returning the raised error in the second component. -/
def runStepsLoop {V : Type} (url : String) (w : Workflow V) :
    List (String × String × (String → Except String V)) →
    Workflow V × Option String
  | [] => ({ w with status := .completed }, none)
  | (name, key, f) :: rest =>
    match f url with
    | .ok r =>
      runStepsLoop url
        { w with
            steps := w.steps ++ [⟨name, .completed, r⟩]
            results := w.results ++ [(key, r)] } rest
    | .error e => ({ w with status := .failed, error := some e }, some e)

/-- The two steps hard-coded in `process_video_workflow`:
step 1 stores under key `"video"`, step 2 under key `"analysis"`. -/
def workflowSteps {V : Type} (step1 step2 : String → Except String V) :
    List (String × String × (String → Except String V)) :=
  [("video_processing", "video", step1), ("content_analysis", "analysis", step2)]

/-- `HostAgent.process_video_workflow` (lines 68-141): build the workflow dict
with id `f"workflow_{len(self.active_workflows) + 1}"` and status
`"processing"`, register it, run the steps (the registered dict is mutated in
place, so the registry holds the final record), and return the record — or
re-raise the failing step's error after the failed record is registered. -/
def process_video_workflow {V : Type}
    (step1 step2 : String → Except String V) (s : HostState V) (url : String) :
    HostState V × Except String (Workflow V) :=
  let wid := mkWorkflowId (s.active_workflows.length + 1)
  let w0 : Workflow V := ⟨wid, url, .processing, [], [], none⟩
  let out := runStepsLoop url w0 (workflowSteps step1 step2)
  (⟨storeWorkflow s.active_workflows out.1⟩,
    match out.2 with
    | none => .ok out.1
    | some e => .error e)

/-- `HostAgent.get_workflow_status` (lines 143-145). -/
def get_workflow_status {V : Type} (s : HostState V) (wid : String) :
    Option (Workflow V) :=
  s.active_workflows.find? (fun w => w.id == wid)

/-- `HostAgent.get_all_workflows` (lines 147-149). -/
def get_all_workflows {V : Type} (s : HostState V) : List (Workflow V) :=
  s.active_workflows

/-- `HostAgent.batch_process_videos` (lines 151-170): run one workflow per
URL; a run that raises is caught and logged and its id is *not* appended to
the returned list. -/
def host_batch_process_videos {V : Type}
    (step1 step2 : String → Except String V) (s : HostState V)
    (urls : List String) : HostState V × List String :=
  match urls with
  | [] => (s, [])
  | url :: rest =>
    let p := process_video_workflow step1 step2 s url
    let q := host_batch_process_videos step1 step2 p.1 rest
    match p.2 with
    | .ok w => (q.1, w.id :: q.2)
    | .error _ => (q.1, q.2)

/-- The host states reachable by any sequence of workflow runs and batch runs
on one `HostAgent` instance (the registry starts empty, line 40). -/
inductive HostReach {V : Type} (step1 step2 : String → Except String V) :
    HostState V → Prop where
  | init : HostReach step1 step2 ⟨[]⟩
  | run {s : HostState V} (url : String) (h : HostReach step1 step2 s) :
      HostReach step1 step2 (process_video_workflow step1 step2 s url).1
  | batch {s : HostState V} (urls : List String)
      (h : HostReach step1 step2 s) :
      HostReach step1 step2 (host_batch_process_videos step1 step2 s urls).1

/-- Whether a workflow run over the two hard-coded steps raises, as a function
of the step oracles and the input only (`runStepsLoop`'s raised error does not
depend on the accumulating record, proved below). -/
def stepsFail {V : Type} (step1 step2 : String → Except String V)
    (url : String) : Bool :=
  (runStepsLoop url ⟨"", url, .processing, [], [], none⟩
    (workflowSteps step1 step2)).2.isSome

/-- The workflow ids `host_batch_process_videos` returns when the registry
already holds `n` workflows: one id per URL whose run does not raise, the
`k`-th URL's run having id `workflow_{n+k+1}` (every run, failed or not,
registers its record and so advances the registry length by one). -/
def batchIdsSpec {V : Type} (step1 step2 : String → Except String V) :
    Nat → List String → List String
  | _, [] => []
  | n, url :: rest =>
    if stepsFail step1 step2 url then batchIdsSpec step1 step2 (n + 1) rest
    else mkWorkflowId (n + 1) :: batchIdsSpec step1 step2 (n + 1) rest

/-! ### Decimal rendering of `Nat`

Workflow ids are the strings `"workflow_" ++ Nat.repr n`; their distinctness
needs injectivity of `Nat.repr`, proved here via a fuel-free characterisation
of `Nat.toDigitsCore` and a decimal decoder. -/

/-- Fuel-free form of `Nat.toDigitsCore 10`: the decimal digits of `n`, most
significant first. -/
def natDigitsSpec (n : Nat) : List Char :=
  if _h : n < 10 then [Nat.digitChar n]
  else natDigitsSpec (n / 10) ++ [Nat.digitChar (n % 10)]
decreasing_by
  exact Nat.div_lt_self (by omega) (by omega)

/-- Decimal decoder inverting `natDigitsSpec`. -/
def decodeDigits (l : List Char) : Nat :=
  l.foldl (fun a c => a * 10 + (c.toNat - 48)) 0

/-! ### Executor invariant and the status-transition order -/

/-- The state invariant of the executor, for concurrency bound `N`.  `queue`,
`waiting` and `active` hold ids of stored tasks, without duplicates and
mutually disjoint; a permit is held by exactly the `active` workers; a task is
`processing` exactly while its worker holds a permit, and `pending` while it
is queued or its worker awaits a permit; `result`/`error` are populated
exactly in the matching terminal status. -/
structure Inv {R : Type} (N : Nat) (s : ExecState R) : Prop where
  semBound : s.sem + s.active.length = N
  idsLt : ∀ t ∈ s.tasks, t.task_id < s.nextId
  idsNodup : (s.tasks.map (fun t => t.task_id)).Nodup
  queueSub : ∀ tid ∈ s.queue, ∃ t ∈ s.tasks, t.task_id = tid
  waitingSub : ∀ tid ∈ s.waiting, ∃ t ∈ s.tasks, t.task_id = tid
  activeSub : ∀ tid ∈ s.active, ∃ t ∈ s.tasks, t.task_id = tid
  queueNodup : s.queue.Nodup
  waitingNodup : s.waiting.Nodup
  activeNodup : s.active.Nodup
  queueWaiting : ∀ tid ∈ s.queue, tid ∉ s.waiting
  queueActive : ∀ tid ∈ s.queue, tid ∉ s.active
  waitingActive : ∀ tid ∈ s.waiting, tid ∉ s.active
  pendingQW : ∀ t ∈ s.tasks, t.task_id ∈ s.queue ∨ t.task_id ∈ s.waiting →
    t.status = .pending
  procActive : ∀ t ∈ s.tasks, (t.status = .processing ↔ t.task_id ∈ s.active)
  resultIff : ∀ t ∈ s.tasks, (t.result.isSome ↔ t.status = .completed)
  errorIff : ∀ t ∈ s.tasks, (t.error.isSome ↔ t.status = .failed)

/-- The transitions a stored task's status can make across one executor step:
stay, `pending → processing`, or `processing → {completed, failed}`. -/
def allowed (a b : TStatus) : Prop :=
  a = b ∨ (a = .pending ∧ b = .processing) ∨
    (a = .processing ∧ (b = .completed ∨ b = .failed))

/-- `allowed` lifted to `get_task_status` views: a task absent from the store
stays absent or appears as `pending`, and a stored task is never removed. -/
def optAllowed : Option TStatus → Option TStatus → Prop
  | none, none => True
  | none, some st => st = .pending
  | some a, some b => allowed a b
  | some _, none => False

/-- Registry invariant of the host agent: the `k`-th registered workflow
(0-based) has id `workflow_{k+1}`. -/
def HostInv {V : Type} (s : HostState V) : Prop :=
  ∀ i (h : i < s.active_workflows.length),
    (s.active_workflows.get ⟨i, h⟩).id = mkWorkflowId (i + 1)

/-- Shape of the status observations of one task along a trace, given its
current status: a block of `pending`, then a block of `processing`, then a
block of one terminal status — i.e. a stuttered subsequence of
`[pending, processing, completed]` or `[pending, processing, failed]` whose
last element is the current status. -/
def goodObs (obs : List TStatus) : Option TStatus → Prop
  | none => obs = []
  | some .pending => ∃ a, obs = List.replicate (a + 1) .pending
  | some .processing => ∃ a b, obs =
      List.replicate a .pending ++ List.replicate (b + 1) .processing
  | some .completed => ∃ a b c, obs =
      List.replicate a .pending ++ List.replicate b .processing ++
        List.replicate (c + 1) .completed
  | some .failed => ∃ a b c, obs =
      List.replicate a .pending ++ List.replicate b .processing ++
        List.replicate (c + 1) .failed

/-! ## Helper lemmas on task lookup and update -/

theorem find?_map_pres {R : Type} (l : List (ProcessingTask R))
    (g : ProcessingTask R → ProcessingTask R)
    (hg : ∀ t, (g t).task_id = t.task_id) (x : Nat) :
    (l.map g).find? (fun t => t.task_id == x) =
      (l.find? (fun t => t.task_id == x)).map g := by
  induction l with
  | nil => rfl
  | cons a l ih =>
    simp only [List.map_cons, List.find?_cons, hg]
    cases h : (a.task_id == x) <;> simp [ih]

theorem findT_some {R : Type} {l : List (ProcessingTask R)} {x : Nat}
    {t : ProcessingTask R} (h : findT l x = some t) :
    t ∈ l ∧ t.task_id = x := by
  refine ⟨List.mem_of_find?_eq_some h, ?_⟩
  have := List.find?_some h
  simpa using this

theorem findT_isSome {R : Type} {l : List (ProcessingTask R)} {x : Nat} :
    (findT l x).isSome ↔ ∃ t ∈ l, t.task_id = x := by
  simp [findT]

theorem updT_map_task_id {R : Type} (l : List (ProcessingTask R)) (tid : Nat)
    (f : ProcessingTask R → ProcessingTask R)
    (hf : ∀ t, (f t).task_id = t.task_id) :
    (updT l tid f).map (fun t => t.task_id) = l.map (fun t => t.task_id) := by
  simp only [updT, List.map_map]
  apply List.map_congr_left
  intro t _
  by_cases h : t.task_id = tid <;> simp [h, hf]

theorem exists_task_id_iff_mem_map {R : Type} (l : List (ProcessingTask R))
    (x : Nat) :
    (∃ t ∈ l, t.task_id = x) ↔ x ∈ l.map (fun t => t.task_id) := by
  simp

theorem mem_updT_iff {R : Type} (l : List (ProcessingTask R)) (tid x : Nat)
    (f : ProcessingTask R → ProcessingTask R)
    (hf : ∀ t, (f t).task_id = t.task_id) :
    (∃ t ∈ updT l tid f, t.task_id = x) ↔ ∃ t ∈ l, t.task_id = x := by
  rw [exists_task_id_iff_mem_map, exists_task_id_iff_mem_map,
    updT_map_task_id l tid f hf]

theorem findT_updT {R : Type} (l : List (ProcessingTask R)) (tid x : Nat)
    (f : ProcessingTask R → ProcessingTask R)
    (hf : ∀ t, (f t).task_id = t.task_id) :
    findT (updT l tid f) x =
      if x = tid then (findT l x).map f else findT l x := by
  have hg : ∀ t : ProcessingTask R,
      ((fun t => if t.task_id == tid then f t else t) t).task_id = t.task_id := by
    intro t; by_cases h : t.task_id = tid <;> simp [h, hf]
  have hmap := find?_map_pres l (fun t => if t.task_id == tid then f t else t)
    hg x
  simp only [findT, updT]
  rw [hmap]
  cases h : l.find? (fun t => t.task_id == x) with
  | none => split <;> rfl
  | some t =>
    have ht : t.task_id = x := by simpa using List.find?_some h
    by_cases hx : x = tid
    · subst hx; simp [ht]
    · simp [ht, hx]

theorem findT_append {R : Type} (l₁ l₂ : List (ProcessingTask R)) (x : Nat) :
    findT (l₁ ++ l₂) x = (findT l₁ x).or (findT l₂ x) := by
  simp only [findT]
  exact List.find?_append

/-! ## Injectivity of decimal rendering -/

theorem toDigitsCore_eq_spec :
    ∀ (fuel n : Nat) (ds : List Char), n < fuel →
      Nat.toDigitsCore 10 fuel n ds = natDigitsSpec n ++ ds := by
  intro fuel
  induction fuel with
  | zero => intro n ds h; omega
  | succ fuel ih =>
    intro n ds h
    show (if n / 10 = 0 then Nat.digitChar (n % 10) :: ds
        else Nat.toDigitsCore 10 fuel (n / 10) (Nat.digitChar (n % 10) :: ds)) =
      natDigitsSpec n ++ ds
    by_cases h10 : n < 10
    · have : n / 10 = 0 := Nat.div_eq_of_lt h10
      rw [if_pos this, natDigitsSpec, dif_pos h10,
        Nat.mod_eq_of_lt h10]
      simp
    · have hne : ¬ n / 10 = 0 := by omega
      rw [if_neg hne]
      have hlt : n / 10 < fuel := by
        have : n / 10 < n := Nat.div_lt_self (by omega) (by omega)
        omega
      rw [ih (n / 10) _ hlt]
      conv_rhs => rw [natDigitsSpec]
      rw [dif_neg h10]
      simp

theorem digitChar_toNat (d : Nat) (h : d < 10) :
    (Nat.digitChar d).toNat - 48 = d := by
  interval_cases d <;> rfl

theorem foldl_natDigitsSpec (n : Nat) :
    ∀ a : Nat,
      List.foldl (fun a c => a * 10 + (c.toNat - 48)) a (natDigitsSpec n) =
        a * 10 ^ (natDigitsSpec n).length + n := by
  induction n using Nat.strong_induction_on with
  | _ n ih =>
    intro a
    by_cases h10 : n < 10
    · rw [natDigitsSpec, dif_pos h10]
      simp [digitChar_toNat n h10]
    · rw [natDigitsSpec, dif_neg h10]
      have hlt : n / 10 < n := Nat.div_lt_self (by omega) (by omega)
      rw [List.foldl_append, ih (n / 10) hlt a]
      simp only [List.foldl_cons, List.foldl_nil, List.length_append,
        List.length_cons, List.length_nil]
      rw [digitChar_toNat (n % 10) (Nat.mod_lt _ (by omega))]
      have := Nat.div_add_mod n 10
      ring_nf
      omega

theorem natRepr_injective : Function.Injective Nat.repr := by
  intro m n h
  have hm : Nat.repr m = (natDigitsSpec m).asString := by
    rw [Nat.repr, Nat.toDigits, toDigitsCore_eq_spec (m + 1) m []
      (Nat.lt_succ_self m)]
    simp
  have hn : Nat.repr n = (natDigitsSpec n).asString := by
    rw [Nat.repr, Nat.toDigits, toDigitsCore_eq_spec (n + 1) n []
      (Nat.lt_succ_self n)]
    simp
  rw [hm, hn] at h
  have hdig : natDigitsSpec m = natDigitsSpec n := by
    have : (natDigitsSpec m).asString.data = (natDigitsSpec n).asString.data := by
      rw [h]
    simpa [List.asString] using this
  have hd : decodeDigits (natDigitsSpec m) = decodeDigits (natDigitsSpec n) := by
    rw [hdig]
  rw [decodeDigits, decodeDigits, foldl_natDigitsSpec m 0,
    foldl_natDigitsSpec n 0] at hd
  simpa using hd

/-! ## Preservation of the executor invariant -/

theorem inv_init {R : Type} (N : Nat) : Inv N (initState R N) := by
  constructor <;> simp [initState]

theorem inv_submit {R : Type} {N : Nat} {s : ExecState R} (hI : Inv N s)
    (url : String) : Inv N (process_video s url).1 := by
  obtain ⟨h1, h2, h3, h4, h5, h6, h7, h8, h9, h10, h11, h12, h13, h14, h15, h16⟩ := hI
  have hfresh : ∀ t ∈ s.tasks, t.task_id ≠ s.nextId := fun t ht =>
    Nat.ne_of_lt (h2 t ht)
  have hqf : s.nextId ∉ s.queue := fun hq => by
    obtain ⟨t, ht, htid⟩ := h4 _ hq
    exact hfresh t ht htid
  have hwf : s.nextId ∉ s.waiting := fun hw => by
    obtain ⟨t, ht, htid⟩ := h5 _ hw
    exact hfresh t ht htid
  have haf : s.nextId ∉ s.active := fun ha => by
    obtain ⟨t, ht, htid⟩ := h6 _ ha
    exact hfresh t ht htid
  have hmapf : s.nextId ∉ s.tasks.map (fun t => t.task_id) := by
    simp only [List.mem_map, not_exists]
    rintro t ⟨ht, htid⟩
    exact hfresh t ht htid
  constructor
  case semBound => simpa [process_video] using h1
  case idsLt =>
    simp only [process_video, List.mem_append, List.mem_singleton]
    rintro t (ht | rfl)
    · exact Nat.lt_succ_of_lt (h2 t ht)
    · exact Nat.lt_succ_self _
  case idsNodup =>
    simp only [process_video, List.map_append, List.map_cons, List.map_nil]
    exact ((List.perm_append_singleton _ _).nodup_iff).mpr
      (List.nodup_cons.mpr ⟨hmapf, h3⟩)
  case queueSub =>
    simp only [process_video, List.mem_append, List.mem_singleton]
    rintro tid (hq | rfl)
    · obtain ⟨t, ht, htid⟩ := h4 _ hq
      exact ⟨t, Or.inl ht, htid⟩
    · exact ⟨_, Or.inr rfl, rfl⟩
  case waitingSub =>
    simp only [process_video, List.mem_append, List.mem_singleton]
    intro tid hw
    obtain ⟨t, ht, htid⟩ := h5 _ hw
    exact ⟨t, Or.inl ht, htid⟩
  case activeSub =>
    simp only [process_video, List.mem_append, List.mem_singleton]
    intro tid ha
    obtain ⟨t, ht, htid⟩ := h6 _ ha
    exact ⟨t, Or.inl ht, htid⟩
  case queueNodup =>
    simp only [process_video]
    exact ((List.perm_append_singleton _ _).nodup_iff).mpr
      (List.nodup_cons.mpr ⟨hqf, h7⟩)
  case waitingNodup => simpa [process_video] using h8
  case activeNodup => simpa [process_video] using h9
  case queueWaiting =>
    simp only [process_video, List.mem_append, List.mem_singleton]
    rintro tid (hq | rfl)
    · exact h10 _ hq
    · exact hwf
  case queueActive =>
    simp only [process_video, List.mem_append, List.mem_singleton]
    rintro tid (hq | rfl)
    · exact h11 _ hq
    · exact haf
  case waitingActive => simpa [process_video] using h12
  case pendingQW =>
    simp only [process_video, List.mem_append, List.mem_singleton]
    rintro t (ht | rfl)
    · rintro ((hq | heq) | hw)
      · exact h13 t ht (Or.inl hq)
      · exact absurd heq (hfresh t ht)
      · exact h13 t ht (Or.inr hw)
    · intro _; rfl
  case procActive =>
    simp only [process_video, List.mem_append, List.mem_singleton]
    rintro t (ht | rfl)
    · exact h14 t ht
    · constructor
      · intro hc; cases hc
      · intro ha; exact absurd ha haf
  case resultIff =>
    simp only [process_video, List.mem_append, List.mem_singleton]
    rintro t (ht | rfl)
    · exact h15 t ht
    · simp
  case errorIff =>
    simp only [process_video, List.mem_append, List.mem_singleton]
    rintro t (ht | rfl)
    · exact h16 t ht
    · simp

theorem inv_dispatch {R : Type} {N : Nat} {s : ExecState R} (hI : Inv N s) :
    Inv N (dispatchRun s) := by
  obtain ⟨h1, h2, h3, h4, h5, h6, h7, h8, h9, h10, h11, h12, h13, h14, h15, h16⟩ := hI
  cases hqe : s.queue with
  | nil => rw [dispatchRun, hqe]; exact ⟨h1, h2, h3, h4, h5, h6, h7, h8, h9,
      h10, h11, h12, h13, h14, h15, h16⟩
  | cons tid rest =>
    rw [dispatchRun, hqe]
    have htq : tid ∈ s.queue := by rw [hqe]; exact List.mem_cons_self _ _
    have hrq : ∀ x ∈ rest, x ∈ s.queue := fun x hx => by
      rw [hqe]; exact List.mem_cons_of_mem _ hx
    have hnr : tid ∉ rest := by
      have := h7; rw [hqe] at this
      exact (List.nodup_cons.mp this).1
    constructor
    case semBound => exact h1
    case idsLt => exact h2
    case idsNodup => exact h3
    case queueSub => exact fun x hx => h4 x (hrq x hx)
    case waitingSub =>
      intro x hx
      rcases List.mem_append.mp hx with hw | hx
      · exact h5 x hw
      · rw [List.mem_singleton] at hx
        exact hx ▸ h4 tid htq
    case activeSub => exact h6
    case queueNodup =>
      have := h7; rw [hqe] at this
      exact (List.nodup_cons.mp this).2
    case waitingNodup =>
      exact ((List.perm_append_singleton _ _).nodup_iff).mpr
        (List.nodup_cons.mpr ⟨h10 tid htq, h8⟩)
    case activeNodup => exact h9
    case queueWaiting =>
      intro x hx hmem
      rcases List.mem_append.mp hmem with hw | hx'
      · exact h10 x (hrq x hx) hw
      · rw [List.mem_singleton] at hx'
        exact hnr (hx' ▸ hx)
    case queueActive => exact fun x hx => h11 x (hrq x hx)
    case waitingActive =>
      intro x hx
      rcases List.mem_append.mp hx with hw | hx'
      · exact h12 x hw
      · rw [List.mem_singleton] at hx'
        exact hx' ▸ h11 tid htq
    case pendingQW =>
      intro t ht hmem
      apply h13 t ht
      rcases hmem with hq | hw
      · exact Or.inl (hrq _ hq)
      · rcases List.mem_append.mp hw with hw' | hx'
        · exact Or.inr hw'
        · rw [List.mem_singleton] at hx'
          exact Or.inl (hx' ▸ htq)
    case procActive => exact h14
    case resultIff => exact h15
    case errorIff => exact h16

theorem inv_acquire {R : Type} {N : Nat} {s : ExecState R} {tid : Nat}
    (hI : Inv N s) (hw : tid ∈ s.waiting) (hs : 0 < s.sem) :
    Inv N (acquireRun s tid) := by
  obtain ⟨h1, h2, h3, h4, h5, h6, h7, h8, h9, h10, h11, h12, h13, h14, h15, h16⟩ := hI
  have hpres : ∀ t : ProcessingTask R, (procTask t).task_id = t.task_id :=
    fun t => rfl
  have htnq : tid ∉ s.queue := fun hq => h10 tid hq hw
  have htna : tid ∉ s.active := h12 tid hw
  have hmem_upd : ∀ x, (∃ t ∈ updT s.tasks tid procTask, t.task_id = x) ↔
      ∃ t ∈ s.tasks, t.task_id = x :=
    fun x => mem_updT_iff s.tasks tid x _ hpres
  constructor
  case semBound => simp only [acquireRun, List.length_append,
      List.length_cons, List.length_nil]; omega
  case idsLt =>
    intro t' ht'
    simp only [acquireRun, updT, List.mem_map] at ht'
    obtain ⟨t, ht, rfl⟩ := ht'
    by_cases h : t.task_id = tid
    · simpa [acquireRun, procTask, h] using h2 t ht
    · simpa [acquireRun, procTask, h] using h2 t ht
  case idsNodup =>
    have := updT_map_task_id s.tasks tid procTask hpres
    simpa [acquireRun, this] using h3
  case queueSub =>
    intro x hx
    exact (hmem_upd x).mpr (h4 x hx)
  case waitingSub =>
    intro x hx
    exact (hmem_upd x).mpr (h5 x (List.erase_subset _ _ hx))
  case activeSub =>
    intro x hx
    rcases List.mem_append.mp hx with hx | hx
    · exact (hmem_upd x).mpr (h6 x hx)
    · rw [List.mem_singleton] at hx
      exact (hmem_upd x).mpr (hx ▸ h5 tid hw)
  case queueNodup => exact h7
  case waitingNodup => exact h8.erase tid
  case activeNodup =>
    exact ((List.perm_append_singleton _ _).nodup_iff).mpr
      (List.nodup_cons.mpr ⟨htna, h9⟩)
  case queueWaiting =>
    intro x hx hmem
    exact h10 x hx (List.erase_subset _ _ hmem)
  case queueActive =>
    intro x hx hmem
    rcases List.mem_append.mp hmem with ha | hx'
    · exact h11 x hx ha
    · rw [List.mem_singleton] at hx'
      exact htnq (hx' ▸ hx)
  case waitingActive =>
    intro x hx hmem
    have hx' := h8.mem_erase_iff.mp hx
    rcases List.mem_append.mp hmem with ha | heq
    · exact h12 x hx'.2 ha
    · rw [List.mem_singleton] at heq
      exact hx'.1 heq
  case pendingQW =>
    intro t' ht' hmem
    simp only [acquireRun, updT, List.mem_map] at ht'
    obtain ⟨t, ht, rfl⟩ := ht'
    by_cases h : t.task_id = tid
    · exfalso
      simp only [acquireRun, procTask, h, beq_self_eq_true, if_true] at hmem
      rcases hmem with hq | hw'
      · exact htnq hq
      · exact (h8.mem_erase_iff.mp hw').1 rfl
    · simp only [acquireRun, procTask, h, beq_iff_eq, if_false] at hmem ⊢
      rcases hmem with hq | hw'
      · exact h13 t ht (Or.inl hq)
      · exact h13 t ht (Or.inr (List.erase_subset _ _ hw'))
  case procActive =>
    intro t' ht'
    simp only [acquireRun, updT, List.mem_map] at ht'
    obtain ⟨t, ht, rfl⟩ := ht'
    by_cases h : t.task_id = tid
    · simp [acquireRun, procTask, h]
    · simp only [acquireRun, procTask, h, beq_iff_eq, if_false]
      rw [h14 t ht]
      constructor
      · intro ha; exact List.mem_append.mpr (Or.inl ha)
      · intro ha
        rcases List.mem_append.mp ha with ha | heq
        · exact ha
        · rw [List.mem_singleton] at heq
          exact absurd heq h
  case resultIff =>
    intro t' ht'
    simp only [acquireRun, updT, List.mem_map] at ht'
    obtain ⟨t, ht, rfl⟩ := ht'
    by_cases h : t.task_id = tid
    · have hpend : t.status = .pending := h13 t ht (Or.inr (h ▸ hw))
      have hres := h15 t ht
      rw [hpend] at hres
      simp only [acquireRun, procTask, h, beq_self_eq_true, if_true]
      simpa using hres
    · simp only [acquireRun, procTask, h, beq_iff_eq, if_false]
      exact h15 t ht
  case errorIff =>
    intro t' ht'
    simp only [acquireRun, updT, List.mem_map] at ht'
    obtain ⟨t, ht, rfl⟩ := ht'
    by_cases h : t.task_id = tid
    · have hpend : t.status = .pending := h13 t ht (Or.inr (h ▸ hw))
      have herr := h16 t ht
      rw [hpend] at herr
      simp only [acquireRun, procTask, h, beq_self_eq_true, if_true]
      simpa using herr
    · simp only [acquireRun, procTask, h, beq_iff_eq, if_false]
      exact h16 t ht

theorem finishTask_task_id {R : Type} (backend : String → Except String R)
    (nowv : Nat) (t : ProcessingTask R) :
    (finishTask backend nowv t).task_id = t.task_id := by
  rw [finishTask]
  cases backend t.video_url <;> rfl

theorem finishTask_status {R : Type} (backend : String → Except String R)
    (nowv : Nat) (t : ProcessingTask R) :
    (finishTask backend nowv t).status = .completed ∨
      (finishTask backend nowv t).status = .failed := by
  rw [finishTask]
  cases backend t.video_url <;> simp

theorem inv_finish {R : Type} {N : Nat} {backend : String → Except String R}
    {s : ExecState R} {tid : Nat} (hI : Inv N s) (ha : tid ∈ s.active) :
    Inv N (finishRun backend s tid) := by
  obtain ⟨h1, h2, h3, h4, h5, h6, h7, h8, h9, h10, h11, h12, h13, h14, h15, h16⟩ := hI
  have hpres : ∀ t : ProcessingTask R,
      (finishTask backend s.now t).task_id = t.task_id :=
    finishTask_task_id backend s.now
  have htnq : tid ∉ s.queue := fun hq => h11 tid hq ha
  have htnw : tid ∉ s.waiting := fun hw => h12 tid hw ha
  have hmem_upd : ∀ x,
      (∃ t ∈ updT s.tasks tid (finishTask backend s.now), t.task_id = x) ↔
      ∃ t ∈ s.tasks, t.task_id = x :=
    fun x => mem_updT_iff s.tasks tid x _ hpres
  constructor
  case semBound =>
    simp only [finishRun, List.length_erase_of_mem ha]
    have : 1 ≤ s.active.length := List.length_pos.mpr (List.ne_nil_of_mem ha)
    omega
  case idsLt =>
    intro t' ht'
    simp only [finishRun, updT, List.mem_map] at ht'
    obtain ⟨t, ht, rfl⟩ := ht'
    by_cases h : t.task_id = tid
    · simpa [finishRun, hpres t, h] using h2 t ht
    · simpa [finishRun, h] using h2 t ht
  case idsNodup =>
    have := updT_map_task_id s.tasks tid (finishTask backend s.now) hpres
    simpa [finishRun, this] using h3
  case queueSub =>
    intro x hx
    exact (hmem_upd x).mpr (h4 x hx)
  case waitingSub =>
    intro x hx
    exact (hmem_upd x).mpr (h5 x hx)
  case activeSub =>
    intro x hx
    exact (hmem_upd x).mpr (h6 x (List.erase_subset _ _ hx))
  case queueNodup => exact h7
  case waitingNodup => exact h8
  case activeNodup => exact h9.erase tid
  case queueWaiting => exact h10
  case queueActive =>
    intro x hx hmem
    exact h11 x hx (List.erase_subset _ _ hmem)
  case waitingActive =>
    intro x hx hmem
    exact h12 x hx (List.erase_subset _ _ hmem)
  case pendingQW =>
    intro t' ht' hmem
    simp only [finishRun, updT, List.mem_map] at ht'
    obtain ⟨t, ht, rfl⟩ := ht'
    by_cases h : t.task_id = tid
    · exfalso
      simp only [finishRun, hpres t, h, beq_self_eq_true, if_true] at hmem
      rcases hmem with hq | hw
      · exact htnq hq
      · exact htnw hw
    · simp only [finishRun, h, beq_iff_eq, if_false] at hmem ⊢
      exact h13 t ht hmem
  case procActive =>
    intro t' ht'
    simp only [finishRun, updT, List.mem_map] at ht'
    obtain ⟨t, ht, rfl⟩ := ht'
    by_cases h : t.task_id = tid
    · simp only [finishRun, h, beq_self_eq_true, if_true]
      have hna : tid ∉ s.active.erase tid := fun hmem =>
        (h9.mem_erase_iff.mp hmem).1 rfl
      constructor
      · intro hproc
        rcases finishTask_status backend s.now t with hc | hf <;>
          rw [hproc] at * <;> simp_all
      · intro hmem
        rw [hpres t, h] at hmem
        exact absurd hmem hna
    · simp only [finishRun, h, beq_iff_eq, if_false]
      rw [h14 t ht]
      constructor
      · intro hmem
        exact (h9.mem_erase_iff).mpr ⟨h, hmem⟩
      · intro hmem
        exact (h9.mem_erase_iff.mp hmem).2
  case resultIff =>
    intro t' ht'
    simp only [finishRun, updT, List.mem_map] at ht'
    obtain ⟨t, ht, rfl⟩ := ht'
    by_cases h : t.task_id = tid
    · have hproc : t.status = .processing := (h14 t ht).mpr (h ▸ ha)
      have hres := h15 t ht
      rw [hproc] at hres
      simp only [h, beq_self_eq_true, if_true, finishTask]
      cases hb : backend t.video_url with
      | ok r => simp
      | error e => simpa using hres
    · simp only [h, beq_iff_eq, if_false]
      exact h15 t ht
  case errorIff =>
    intro t' ht'
    simp only [finishRun, updT, List.mem_map] at ht'
    obtain ⟨t, ht, rfl⟩ := ht'
    by_cases h : t.task_id = tid
    · have hproc : t.status = .processing := (h14 t ht).mpr (h ▸ ha)
      have herr := h16 t ht
      rw [hproc] at herr
      simp only [h, beq_self_eq_true, if_true, finishTask]
      cases hb : backend t.video_url with
      | ok r => simpa using herr
      | error e => simp
    · simp only [h, beq_iff_eq, if_false]
      exact h16 t ht

theorem inv_step {R : Type} {N : Nat} {backend : String → Except String R}
    {s s' : ExecState R} (hI : Inv N s) (hs : Step backend s s') : Inv N s' := by
  cases hs with
  | submit url => exact inv_submit hI url
  | start => exact ⟨hI.semBound, hI.idsLt, hI.idsNodup, hI.queueSub,
      hI.waitingSub, hI.activeSub, hI.queueNodup, hI.waitingNodup,
      hI.activeNodup, hI.queueWaiting, hI.queueActive, hI.waitingActive,
      hI.pendingQW, hI.procActive, hI.resultIff, hI.errorIff⟩
  | stop => exact ⟨hI.semBound, hI.idsLt, hI.idsNodup, hI.queueSub,
      hI.waitingSub, hI.activeSub, hI.queueNodup, hI.waitingNodup,
      hI.activeNodup, hI.queueWaiting, hI.queueActive, hI.waitingActive,
      hI.pendingQW, hI.procActive, hI.resultIff, hI.errorIff⟩
  | dispatch hr hq => exact inv_dispatch hI
  | acquire tid hw hsem => exact inv_acquire hI hw hsem
  | finish tid ha => exact inv_finish hI ha

theorem reachable_inv {R : Type} {N : Nat} {backend : String → Except String R}
    {s : ExecState R} (h : Reachable backend N s) : Inv N s := by
  induction h with
  | refl => exact inv_init N
  | tail _ hstep ih => exact inv_step ih hstep

/-! ## Status transitions across one step -/

theorem optAllowed_refl {o : Option TStatus} : optAllowed o o := by
  cases o with
  | none => trivial
  | some a => exact Or.inl rfl

theorem statusOf_step {R : Type} {N : Nat} {backend : String → Except String R}
    {s s' : ExecState R} (hI : Inv N s) (hs : Step backend s s') (tid : Nat) :
    optAllowed (statusOf s tid) (statusOf s' tid) := by
  cases hs with
  | submit url =>
    have happ : findT ((process_video s url).1).tasks tid =
        (findT s.tasks tid).or
          (findT [⟨s.nextId, url, .pending, s.now, none, none, none⟩] tid) := by
      simp only [process_video]
      exact findT_append _ _ _
    by_cases h : tid = s.nextId
    · subst h
      have hnone : findT s.tasks s.nextId = none := by
        rw [findT, List.find?_eq_none]
        intro t ht
        simp only [beq_iff_eq]
        exact Nat.ne_of_lt (hI.idsLt t ht)
      have hA : statusOf s s.nextId = none := by
        rw [statusOf, hnone]; rfl
      have hB : statusOf (process_video s url).1 s.nextId = some .pending := by
        rw [statusOf, happ, hnone]
        simp [findT]
      rw [hA, hB]
      exact rfl
    · have hsingle :
          findT [(⟨s.nextId, url, .pending, s.now, none, none, none⟩ :
            ProcessingTask R)] tid = none := by
        simp [findT, Ne.symm h]
      have hB : statusOf (process_video s url).1 tid = statusOf s tid := by
        rw [statusOf, happ, hsingle, Option.or_none, statusOf]
      rw [hB]
      exact optAllowed_refl
  | start => exact optAllowed_refl
  | stop => exact optAllowed_refl
  | dispatch hr hq =>
    have htasks : (dispatchRun s).tasks = s.tasks := by
      rw [dispatchRun]
      cases s.queue <;> rfl
    have hB : statusOf (dispatchRun s) tid = statusOf s tid := by
      simp only [statusOf, htasks]
    rw [hB]
    exact optAllowed_refl
  | acquire tid' hw hsem =>
    have hupd := findT_updT s.tasks tid' tid procTask (fun t => rfl)
    by_cases h : tid = tid'
    · subst h
      have hsome : (findT s.tasks tid).isSome :=
        findT_isSome.mpr (hI.waitingSub tid hw)
      obtain ⟨u, hu⟩ := Option.isSome_iff_exists.mp hsome
      obtain ⟨humem, huid⟩ := findT_some hu
      have hupend : u.status = .pending :=
        hI.pendingQW u humem (Or.inr (huid ▸ hw))
      have hA : statusOf s tid = some .pending := by
        rw [statusOf, hu]
        simp [hupend]
      have hB : statusOf (acquireRun s tid) tid = some .processing := by
        simp only [statusOf, acquireRun]
        rw [hupd, if_pos rfl, hu]
        rfl
      rw [hA, hB]
      exact Or.inr (Or.inl ⟨rfl, rfl⟩)
    · have hB : statusOf (acquireRun s tid') tid = statusOf s tid := by
        simp only [statusOf, acquireRun]
        rw [hupd, if_neg h]
      rw [hB]
      exact optAllowed_refl
  | finish tid' ha =>
    have hupd := findT_updT s.tasks tid' tid (finishTask backend s.now)
      (finishTask_task_id backend s.now)
    by_cases h : tid = tid'
    · subst h
      have hsome : (findT s.tasks tid).isSome :=
        findT_isSome.mpr (hI.activeSub tid ha)
      obtain ⟨u, hu⟩ := Option.isSome_iff_exists.mp hsome
      obtain ⟨humem, huid⟩ := findT_some hu
      have huproc : u.status = .processing :=
        (hI.procActive u humem).mpr (huid ▸ ha)
      have hA : statusOf s tid = some .processing := by
        rw [statusOf, hu]
        simp [huproc]
      have hB : statusOf (finishRun backend s tid) tid =
          some ((finishTask backend s.now u).status) := by
        simp only [statusOf, finishRun]
        rw [hupd, if_pos rfl, hu]
        rfl
      rw [hA, hB]
      rcases finishTask_status backend s.now u with hc | hf
      · rw [hc]
        exact Or.inr (Or.inr ⟨rfl, Or.inl rfl⟩)
      · rw [hf]
        exact Or.inr (Or.inr ⟨rfl, Or.inr rfl⟩)
    · have hB : statusOf (finishRun backend s tid') tid = statusOf s tid := by
        simp only [statusOf, finishRun]
        rw [hupd, if_neg h]
      rw [hB]
      exact optAllowed_refl

/-! ## The concurrency bound -/

theorem count_processing_le {R : Type} {N : Nat} {s : ExecState R}
    (hI : Inv N s) : get_active_tasks_count s ≤ N := by
  have hsub : (s.tasks.filter (fun t => t.status == .processing)).map
      (fun t => t.task_id) ⊆ s.active := by
    intro x hx
    simp only [List.mem_map, List.mem_filter, beq_iff_eq] at hx
    obtain ⟨t, ⟨ht, hproc⟩, rfl⟩ := hx
    exact (hI.procActive t ht).mp hproc
  have hnd : ((s.tasks.filter (fun t => t.status == .processing)).map
      (fun t => t.task_id)).Nodup :=
    ((List.filter_sublist _).map _).nodup hI.idsNodup
  have hle := (List.subperm_of_subset hnd hsub).length_le
  rw [List.length_map] at hle
  have := hI.semBound
  rw [get_active_tasks_count]
  omega

/-! ## Traces and the per-task status history -/

theorem rtrace_head_reachable {R : Type}
    {backend : String → Except String R} {N : Nat}
    {l : List (ExecState R)} (h : RTrace backend N l) :
    ∀ s rest, l = s :: rest → Reachable backend N s := by
  induction h with
  | init =>
    intro s rest he
    cases he
    exact Relation.ReflTransGen.refl
  | step tr hs ih =>
    intro s₂ rest₂ he
    cases he
    exact Relation.ReflTransGen.tail (ih _ _ rfl) hs

theorem obsOf_cons {R : Type} (s' : ExecState R) (tr : List (ExecState R))
    (tid : Nat) :
    obsOf (s' :: tr) tid = obsOf tr tid ++ (statusOf s' tid).toList := by
  cases h : statusOf s' tid <;>
    simp [obsOf, List.filterMap_append, h]

theorem replicate_snoc {α : Type} (n : Nat) (x : α) :
    List.replicate n x ++ [x] = List.replicate (n + 1) x :=
  (List.replicate_succ' n x).symm

theorem rtrace_goodObs {R : Type} {backend : String → Except String R}
    {N : Nat} {l : List (ExecState R)} (h : RTrace backend N l) (tid : Nat) :
    ∀ s rest, l = s :: rest → goodObs (obsOf l tid) (statusOf s tid) := by
  induction h with
  | init =>
    intro s rest he
    cases he
    have : statusOf (initState R N) tid = none := rfl
    rw [this]
    rfl
  | step tr hs ih =>
    rename_i s s' rest
    intro s₂ rest₂ he
    cases he
    have hI : Inv N s :=
      reachable_inv (rtrace_head_reachable tr s rest rfl)
    have hstep := statusOf_step hI hs tid
    have hprev := ih s rest rfl
    rw [obsOf_cons]
    cases hA : statusOf s tid with
    | none =>
      rw [hA] at hprev hstep
      cases hB : statusOf s' tid with
      | none =>
        rw [goodObs] at hprev
        rw [hprev]
        rfl
      | some st =>
        rw [hB] at hstep
        have hst : st = .pending := hstep
        rw [goodObs] at hprev
        rw [hprev, hst]
        exact ⟨0, rfl⟩
    | some stA =>
      rw [hA] at hprev hstep
      cases hB : statusOf s' tid with
      | none =>
        rw [hB] at hstep
        exact absurd hstep id
      | some stB =>
        rw [hB] at hstep
        cases stA <;> cases stB <;>
          simp only [allowed, optAllowed, reduceCtorEq, false_and, and_false,
            or_self, or_false, false_or, and_self, true_and] at hstep
        -- pending → pending
        case pending.pending =>
          obtain ⟨a, hobs⟩ := hprev
          exact ⟨a + 1, by rw [hobs, Option.toList, replicate_snoc]⟩
        -- pending → processing
        case pending.processing =>
          obtain ⟨a, hobs⟩ := hprev
          exact ⟨a + 1, 0, by rw [hobs, Option.toList]; rfl⟩
        -- processing → processing
        case processing.processing =>
          obtain ⟨a, b, hobs⟩ := hprev
          refine ⟨a, b + 1, ?_⟩
          rw [hobs, Option.toList, List.append_assoc, replicate_snoc]
        -- processing → completed
        case processing.completed =>
          obtain ⟨a, b, hobs⟩ := hprev
          refine ⟨a, b + 1, 0, ?_⟩
          rw [hobs, Option.toList]
          simp [List.append_assoc]
        -- processing → failed
        case processing.failed =>
          obtain ⟨a, b, hobs⟩ := hprev
          refine ⟨a, b + 1, 0, ?_⟩
          rw [hobs, Option.toList]
          simp [List.append_assoc]
        -- completed → completed
        case completed.completed =>
          obtain ⟨a, b, c, hobs⟩ := hprev
          refine ⟨a, b, c + 1, ?_⟩
          rw [hobs, Option.toList]
          simp [List.append_assoc, replicate_snoc]
        -- failed → failed
        case failed.failed =>
          obtain ⟨a, b, c, hobs⟩ := hprev
          refine ⟨a, b, c + 1, ?_⟩
          rw [hobs, Option.toList]
          simp [List.append_assoc, replicate_snoc]

/-! ## Destuttering the status history

Removing stutter from a `goodObs` decomposition leaves a sublist (in the
literal `List.Sublist` sense) of `[pending, processing, completed]` or
`[pending, processing, failed]`. -/

theorem destutter_replicate_append {α : Type} [DecidableEq α] (n : Nat)
    (x : α) (l : List α) :
    (List.replicate n x ++ l).destutter' (· ≠ ·) x =
      l.destutter' (· ≠ ·) x := by
  induction n with
  | zero => rfl
  | succ n ih =>
    rw [List.replicate_succ, List.cons_append, List.destutter'_cons,
      if_neg (not_not_intro rfl), ih]

theorem destutter_replicate {α : Type} [DecidableEq α] (n : Nat) (x : α) :
    (List.replicate n x).destutter' (· ≠ ·) x = [x] := by
  induction n with
  | zero => rfl
  | succ n ih =>
    rw [List.replicate_succ, List.destutter'_cons,
      if_neg (not_not_intro rfl), ih]

theorem destutter_proc_tail (b c : Nat) (last : TStatus)
    (h2 : last ≠ .processing) :
    List.Sublist
      ((List.replicate b TStatus.processing ++
        List.replicate c last).destutter' (· ≠ ·) TStatus.processing)
      [TStatus.processing, last] := by
  rw [destutter_replicate_append]
  cases c with
  | zero =>
    simp only [List.replicate_zero, List.destutter'_nil]
    exact List.Sublist.cons₂ _ (List.nil_sublist _)
  | succ c =>
    rw [List.replicate_succ, List.destutter'_cons, if_pos (Ne.symm h2),
      destutter_replicate]

theorem destutter_canon (a b c : Nat) (last : TStatus)
    (h1 : last ≠ .pending) (h2 : last ≠ .processing) :
    List.Sublist
      ((List.replicate a TStatus.pending ++
        List.replicate b TStatus.processing ++
        List.replicate c last).destutter (· ≠ ·))
      [TStatus.pending, TStatus.processing, last] := by
  cases a with
  | succ a =>
    rw [List.replicate_succ, List.cons_append, List.cons_append,
      List.destutter_cons', List.append_assoc, destutter_replicate_append]
    cases b with
    | zero =>
      simp only [List.replicate_zero, List.nil_append]
      cases c with
      | zero =>
        simp only [List.replicate_zero, List.destutter'_nil]
        exact List.Sublist.cons₂ _ (List.nil_sublist _)
      | succ c =>
        rw [List.replicate_succ, List.destutter'_cons, if_pos (Ne.symm h1),
          destutter_replicate]
        exact List.Sublist.cons₂ _ (List.Sublist.cons _ (List.Sublist.refl _))
    | succ b =>
      rw [List.replicate_succ, List.cons_append, List.destutter'_cons,
        if_pos (by decide)]
      exact List.Sublist.cons₂ _ (destutter_proc_tail b c last h2)
  | zero =>
    simp only [List.replicate_zero, List.nil_append]
    cases b with
    | zero =>
      simp only [List.replicate_zero, List.nil_append]
      cases c with
      | zero => simp
      | succ c =>
        rw [List.replicate_succ, List.destutter_cons', destutter_replicate]
        exact List.Sublist.cons _ (List.Sublist.cons _ (List.Sublist.refl _))
    | succ b =>
      rw [List.replicate_succ, List.cons_append, List.destutter_cons']
      exact List.Sublist.cons _ (destutter_proc_tail b c last h2)

theorem mkWorkflowId_injective : Function.Injective mkWorkflowId := by
  intro m n h
  apply natRepr_injective
  have h1 : "workflow_".data ++ (Nat.repr m).data =
      "workflow_".data ++ (Nat.repr n).data := by
    have := congrArg String.data h
    simpa [mkWorkflowId, String.data_append] using this
  have h2 : (Nat.repr m).data = (Nat.repr n).data :=
    List.append_cancel_left h1
  exact congrArg String.mk h2

/-! ## Workflow orchestrator lemmas -/

theorem runStepsLoop_id {V : Type} (url : String)
    (steps : List (String × String × (String → Except String V))) :
    ∀ w : Workflow V, (runStepsLoop url w steps).1.id = w.id ∧
      (runStepsLoop url w steps).1.video_url = w.video_url := by
  induction steps with
  | nil => intro w; exact ⟨rfl, rfl⟩
  | cons p rest ih =>
    intro w
    obtain ⟨nm, ky, f⟩ := p
    cases hf : f url with
    | ok r =>
      simp only [runStepsLoop, hf]
      exact ih _
    | error e =>
      simp [runStepsLoop, hf]

theorem runStepsLoop_err_irrel {V : Type} (url : String)
    (steps : List (String × String × (String → Except String V))) :
    ∀ w w' : Workflow V,
      (runStepsLoop url w steps).2 = (runStepsLoop url w' steps).2 := by
  induction steps with
  | nil => intro w w'; rfl
  | cons p rest ih =>
    intro w w'
    obtain ⟨nm, ky, f⟩ := p
    cases hf : f url with
    | ok r =>
      simp only [runStepsLoop, hf]
      exact ih _ _
    | error e =>
      simp only [runStepsLoop, hf]

theorem runStepsLoop_fail {V : Type} (url : String) (e : String)
    (nm ky : String) (f : String → Except String V) (hf : f url = .error e) :
    ∀ (pre : List (String × String × (String → Except String V)))
      (post : List (String × String × (String → Except String V)))
      (w : Workflow V),
      (∀ p ∈ pre, ∃ v, p.2.2 url = Except.ok v) →
      (runStepsLoop url w (pre ++ (nm, ky, f) :: post)).1.status = .failed ∧
      (runStepsLoop url w (pre ++ (nm, ky, f) :: post)).1.error = some e ∧
      (runStepsLoop url w (pre ++ (nm, ky, f) :: post)).2 = some e ∧
      (runStepsLoop url w (pre ++ (nm, ky, f) :: post)).1.steps.length =
        w.steps.length + pre.length ∧
      (runStepsLoop url w (pre ++ (nm, ky, f) :: post)).1.results.length =
        w.results.length + pre.length ∧
      (∀ r ∈ (runStepsLoop url w (pre ++ (nm, ky, f) :: post)).1.steps,
        r ∈ w.steps ∨ r.status = .completed) ∧
      ∀ post', runStepsLoop url w (pre ++ (nm, ky, f) :: post') =
        runStepsLoop url w (pre ++ (nm, ky, f) :: post) := by
  intro pre
  induction pre with
  | nil =>
    intro post w _
    have hrun : ∀ post₀ : List (String × String × (String → Except String V)),
        runStepsLoop url w ([] ++ (nm, ky, f) :: post₀) =
          ({ w with status := .failed, error := some e }, some e) := by
      intro post₀
      simp only [List.nil_append, runStepsLoop, hf]
    rw [hrun post]
    refine ⟨rfl, rfl, rfl, by simp, by simp, ?_, ?_⟩
    · intro r hr
      exact Or.inl hr
    · intro post'
      rw [hrun post']
  | cons p rest ih =>
    intro post w hpre
    obtain ⟨nm', ky', f'⟩ := p
    obtain ⟨v, hv⟩ := hpre _ (List.mem_cons_self _ _)
    have hv' : f' url = Except.ok v := hv
    have hpre' : ∀ p ∈ rest, ∃ v, p.2.2 url = Except.ok v := fun p hp =>
      hpre p (List.mem_cons_of_mem _ hp)
    have hrun : ∀ post₀ : List (String × String × (String → Except String V)),
        runStepsLoop url w (((nm', ky', f') :: rest) ++ (nm, ky, f) :: post₀) =
        runStepsLoop url
          { w with steps := w.steps ++ [⟨nm', .completed, v⟩],
                   results := w.results ++ [(ky', v)] }
          (rest ++ (nm, ky, f) :: post₀) := by
      intro post₀
      simp only [List.cons_append, runStepsLoop, hv']
      rfl
    obtain ⟨hst, herr, hout, hslen, hrlen, hall, hpost⟩ :=
      ih post
        ({ w with steps := w.steps ++ [⟨nm', .completed, v⟩],
                  results := w.results ++ [(ky', v)] })
        hpre'
    rw [hrun post]
    refine ⟨hst, herr, hout, ?_, ?_, ?_, ?_⟩
    · rw [hslen]
      simp only [List.length_append, List.length_cons, List.length_nil]
      omega
    · rw [hrlen]
      simp only [List.length_append, List.length_cons, List.length_nil]
      omega
    · intro r hr
      rcases hall r hr with hmem | hcomp
      · rcases List.mem_append.mp hmem with h | h
        · exact Or.inl h
        · rw [List.mem_singleton] at h
          subst h
          exact Or.inr rfl
      · exact Or.inr hcomp
    · intro post'
      rw [hrun post']
      exact hpost post'

theorem run_err_eq_stepsFail {V : Type}
    (step1 step2 : String → Except String V) (url : String) (w : Workflow V) :
    (runStepsLoop url w (workflowSteps step1 step2)).2.isSome =
      stepsFail step1 step2 url := by
  rw [stepsFail, runStepsLoop_err_irrel url (workflowSteps step1 step2) w
    ⟨"", url, .processing, [], [], none⟩]

theorem storeWorkflow_fresh {V : Type} (l : List (Workflow V))
    (w : Workflow V) (h : ∀ x ∈ l, x.id ≠ w.id) :
    storeWorkflow l w = l ++ [w] := by
  have hany : l.any (fun x => x.id == w.id) = false := by
    rw [List.any_eq_false]
    intro x hx
    simpa using h x hx
  rw [storeWorkflow, hany]
  simp

theorem hostInv_append {V : Type} (l : List (Workflow V)) (w : Workflow V)
    (hInv : HostInv ⟨l⟩) (hw : w.id = mkWorkflowId (l.length + 1)) :
    HostInv ⟨l ++ [w]⟩ := by
  intro i hlen
  rw [List.get_eq_getElem]
  simp only [List.length_append, List.length_cons, List.length_nil] at hlen ⊢
  by_cases h : i < l.length
  · rw [List.getElem_append_left h]
    have := hInv i h
    rw [List.get_eq_getElem] at this
    exact this
  · have hi : i = l.length := by omega
    subst hi
    rw [List.getElem_append_right (Nat.le_refl _)]
    simpa using hw

theorem pvw_registry {V : Type} (step1 step2 : String → Except String V)
    (s : HostState V) (url : String) (hInv : HostInv s) :
    (process_video_workflow step1 step2 s url).1.active_workflows =
      s.active_workflows ++
        [(runStepsLoop url
            ⟨mkWorkflowId (s.active_workflows.length + 1), url, .processing,
              [], [], none⟩ (workflowSteps step1 step2)).1] := by
  simp only [process_video_workflow]
  apply storeWorkflow_fresh
  intro x hx
  obtain ⟨i, hxi⟩ := List.mem_iff_get.mp hx
  have hid : x.id = mkWorkflowId (i.1 + 1) := by
    rw [← hxi]
    exact hInv i.1 i.2
  rw [hid, (runStepsLoop_id url (workflowSteps step1 step2) _).1]
  intro heq
  have := mkWorkflowId_injective heq
  have hlt := i.2
  omega

theorem hostInv_run {V : Type} (step1 step2 : String → Except String V)
    (s : HostState V) (url : String) (hInv : HostInv s) :
    HostInv (process_video_workflow step1 step2 s url).1 := by
  have hreg := pvw_registry step1 step2 s url hInv
  have hs' : (process_video_workflow step1 step2 s url).1 =
      ⟨s.active_workflows ++
        [(runStepsLoop url
            ⟨mkWorkflowId (s.active_workflows.length + 1), url, .processing,
              [], [], none⟩ (workflowSteps step1 step2)).1]⟩ := by
    have he : (process_video_workflow step1 step2 s url).1 =
        ⟨(process_video_workflow step1 step2 s url).1.active_workflows⟩ := rfl
    rw [he, hreg]
  rw [hs']
  exact hostInv_append _ _ hInv
    ((runStepsLoop_id url (workflowSteps step1 step2) _).1)

theorem pvw_ok_of_not_fail {V : Type}
    (step1 step2 : String → Except String V) (s : HostState V) (url : String)
    (hfail : stepsFail step1 step2 url = false) :
    (process_video_workflow step1 step2 s url).2 =
      Except.ok (runStepsLoop url
        ⟨mkWorkflowId (s.active_workflows.length + 1), url, .processing,
          [], [], none⟩ (workflowSteps step1 step2)).1 := by
  have hiss := run_err_eq_stepsFail step1 step2 url
    ⟨mkWorkflowId (s.active_workflows.length + 1), url, .processing,
      [], [], none⟩
  rw [hfail] at hiss
  simp only [process_video_workflow]
  cases ho : (runStepsLoop url
      ⟨mkWorkflowId (s.active_workflows.length + 1), url, .processing,
        [], [], none⟩ (workflowSteps step1 step2)).2 with
  | none => rfl
  | some e =>
    rw [ho] at hiss
    simp at hiss

theorem pvw_error_of_fail {V : Type}
    (step1 step2 : String → Except String V) (s : HostState V) (url : String)
    (hfail : stepsFail step1 step2 url = true) :
    ∃ e, (process_video_workflow step1 step2 s url).2 = Except.error e := by
  have hiss := run_err_eq_stepsFail step1 step2 url
    ⟨mkWorkflowId (s.active_workflows.length + 1), url, .processing,
      [], [], none⟩
  rw [hfail, Option.isSome_iff_exists] at hiss
  obtain ⟨e, he⟩ := hiss
  refine ⟨e, ?_⟩
  simp only [process_video_workflow, he]

theorem host_batch_cons_fst {V : Type}
    (step1 step2 : String → Except String V) (s : HostState V) (url : String)
    (rest : List String) :
    (host_batch_process_videos step1 step2 s (url :: rest)).1 =
      (host_batch_process_videos step1 step2
        (process_video_workflow step1 step2 s url).1 rest).1 := by
  simp only [host_batch_process_videos]
  cases (process_video_workflow step1 step2 s url).2 <;> rfl

theorem host_batch_spec {V : Type} (step1 step2 : String → Except String V) :
    ∀ (urls : List String) (s : HostState V), HostInv s →
      (host_batch_process_videos step1 step2 s urls).1.active_workflows.length
          = s.active_workflows.length + urls.length ∧
      HostInv (host_batch_process_videos step1 step2 s urls).1 ∧
      (host_batch_process_videos step1 step2 s urls).2 =
        batchIdsSpec step1 step2 s.active_workflows.length urls := by
  intro urls
  induction urls with
  | nil =>
    intro s hInv
    exact ⟨by simp [host_batch_process_videos], hInv, rfl⟩
  | cons url rest ih =>
    intro s hInv
    have hreg := pvw_registry step1 step2 s url hInv
    have hInv' := hostInv_run step1 step2 s url hInv
    have hlen' :
        (process_video_workflow step1 step2 s url).1.active_workflows.length =
        s.active_workflows.length + 1 := by
      rw [hreg]
      simp
    obtain ⟨ihlen, ihinv, ihids⟩ := ih _ hInv'
    refine ⟨?_, ?_, ?_⟩
    · rw [host_batch_cons_fst, ihlen, hlen']
      simp only [List.length_cons]
      omega
    · rw [host_batch_cons_fst]
      exact ihinv
    · cases hfail : stepsFail step1 step2 url with
      | true =>
        obtain ⟨e, he⟩ := pvw_error_of_fail step1 step2 s url hfail
        simp only [host_batch_process_videos, he]
        rw [ihids, hlen', batchIdsSpec, hfail]
        simp
      | false =>
        have he := pvw_ok_of_not_fail step1 step2 s url hfail
        simp only [host_batch_process_videos, he]
        rw [ihids, hlen', batchIdsSpec, hfail,
          (runStepsLoop_id url (workflowSteps step1 step2) _).1]
        simp

theorem hostReach_inv {V : Type} {step1 step2 : String → Except String V}
    {s : HostState V} (h : HostReach step1 step2 s) : HostInv s := by
  induction h with
  | init =>
    intro i hi
    simp at hi
  | run url h ih => exact hostInv_run _ _ _ _ ih
  | batch urls h ih => exact (host_batch_spec _ _ urls _ ih).2.1

/-! ## Submission and batch-submission lemmas -/

theorem process_video_spec {R : Type} (s : ExecState R) (url : String)
    (hfresh : ∀ t ∈ s.tasks, t.task_id < s.nextId) :
    get_task_status (process_video s url).1 (process_video s url).2 =
      some ⟨s.nextId, url, .pending, s.now, none, none, none⟩ ∧
    (∀ t ∈ s.tasks, t.task_id ≠ (process_video s url).2) ∧
    (process_video s url).1.tasks =
      s.tasks ++ [⟨s.nextId, url, .pending, s.now, none, none, none⟩] ∧
    (process_video s url).1.queue = s.queue ++ [(process_video s url).2] ∧
    (process_video s url).1.sem = s.sem ∧
    (process_video s url).1.waiting = s.waiting ∧
    (process_video s url).1.active = s.active ∧
    (process_video s url).1.running = s.running := by
  have hnone : findT s.tasks s.nextId = none := by
    rw [findT, List.find?_eq_none]
    intro t ht
    simp only [beq_iff_eq]
    exact Nat.ne_of_lt (hfresh t ht)
  refine ⟨?_, ?_, rfl, rfl, rfl, rfl, rfl, rfl⟩
  · rw [get_task_status]
    show findT (s.tasks ++ [_]) s.nextId = _
    rw [findT_append, hnone]
    simp [findT]
  · intro t ht
    exact Nat.ne_of_lt (hfresh t ht)

theorem process_video_idsLt {R : Type} (s : ExecState R) (url : String)
    (h : ∀ t ∈ s.tasks, t.task_id < s.nextId) :
    ∀ t ∈ (process_video s url).1.tasks,
      t.task_id < (process_video s url).1.nextId := by
  simp only [process_video, List.mem_append, List.mem_singleton]
  rintro t (ht | rfl)
  · exact Nat.lt_succ_of_lt (h t ht)
  · exact Nat.lt_succ_self _

theorem batch_spec {R : Type} :
    ∀ (urls : List String) (s : ExecState R),
      (∀ t ∈ s.tasks, t.task_id < s.nextId) →
      (batch_process_videos s urls).2.length = urls.length ∧
      (batch_process_videos s urls).1.nextId = s.nextId + urls.length ∧
      (∀ tid, (findT s.tasks tid).isSome →
        findT (batch_process_videos s urls).1.tasks tid = findT s.tasks tid) ∧
      (∀ i, i < urls.length →
        (batch_process_videos s urls).2.getD i 0 = s.nextId + i) ∧
      (∀ i, i < urls.length →
        (findT (batch_process_videos s urls).1.tasks (s.nextId + i)).map
          (fun t => (t.video_url, t.status)) =
          some (urls.getD i "", TStatus.pending)) := by
  intro urls
  induction urls with
  | nil =>
    intro s _
    refine ⟨rfl, rfl, fun tid _ => rfl, ?_, ?_⟩ <;>
      (intro i hi; exact absurd hi (by simp))
  | cons url rest ih =>
    intro s hfresh
    obtain ⟨hq, hfind1, hnewT, _, _, _, _, _⟩ := process_video_spec s url hfresh
    have hfresh' := process_video_idsLt s url hfresh
    obtain ⟨ihlen, ihnext, ihpres, ihpos, ihfind⟩ := ih _ hfresh'
    have hb1 : (batch_process_videos s (url :: rest)).1 =
        (batch_process_videos (process_video s url).1 rest).1 := rfl
    have hb2 : (batch_process_videos s (url :: rest)).2 =
        (process_video s url).2 ::
          (batch_process_videos (process_video s url).1 rest).2 := rfl
    have hnext1 : (process_video s url).1.nextId = s.nextId + 1 := rfl
    refine ⟨?_, ?_, ?_, ?_, ?_⟩
    · rw [hb2]
      simp only [List.length_cons, ihlen]
    · rw [hb1, ihnext, hnext1]
      simp only [List.length_cons]
      omega
    · intro tid hsome
      rw [hb1]
      have hpres : findT (process_video s url).1.tasks tid = findT s.tasks tid := by
        rw [hnewT, findT_append]
        obtain ⟨u, hu⟩ := Option.isSome_iff_exists.mp hsome
        rw [hu]
        rfl
      rw [ihpres tid (by rw [hpres]; exact hsome), hpres]
    · intro i hi
      cases i with
      | zero =>
        rw [hb2]
        rfl
      | succ i =>
        rw [hb2]
        simp only [List.getD_cons_succ]
        rw [ihpos i (by simpa using hi), hnext1]
        omega
    · intro i hi
      cases i with
      | zero =>
        rw [hb1]
        simp only [Nat.add_zero, List.getD_cons_zero]
        have hself : (findT (process_video s url).1.tasks s.nextId).isSome := by
          rw [show findT (process_video s url).1.tasks s.nextId =
            get_task_status (process_video s url).1
              (process_video s url).2 from rfl, hq]
          rfl
        rw [ihpres s.nextId hself]
        rw [show findT (process_video s url).1.tasks s.nextId =
          get_task_status (process_video s url).1
            (process_video s url).2 from rfl, hq]
        rfl
      | succ i =>
        rw [hb1]
        have := ihfind i (by simpa using hi)
        rw [hnext1] at this
        rw [show s.nextId + (i + 1) = s.nextId + 1 + i by omega]
        simpa using this

/-! ## Decomposing observation histories -/

theorem goodObs_decomp {obs : List TStatus} {cur : Option TStatus}
    (h : goodObs obs cur) :
    ∃ a b c last, (last = TStatus.completed ∨ last = TStatus.failed) ∧
      obs = List.replicate a .pending ++ List.replicate b .processing ++
        List.replicate c last := by
  cases cur with
  | none =>
    refine ⟨0, 0, 0, .completed, Or.inl rfl, ?_⟩
    rw [goodObs] at h
    simp [h]
  | some st =>
    cases st with
    | pending =>
      obtain ⟨a, ho⟩ := h
      exact ⟨a + 1, 0, 0, .completed, Or.inl rfl, by simp [ho]⟩
    | processing =>
      obtain ⟨a, b, ho⟩ := h
      exact ⟨a, b + 1, 0, .completed, Or.inl rfl, by simp [ho]⟩
    | completed =>
      obtain ⟨a, b, c, ho⟩ := h
      exact ⟨a, b, c + 1, .completed, Or.inl rfl, ho⟩
    | failed =>
      obtain ⟨a, b, c, ho⟩ := h
      exact ⟨a, b, c + 1, .failed, Or.inr rfl, ho⟩

/-! ## Behaviour of a stopped executor -/

theorem stopped_step_queue {R : Type} {N : Nat}
    {backend : String → Except String R} {s s' : ExecState R}
    (hI : Inv N s) (hrun : s.running = false) (hs : Step backend s s') :
    ∀ tid ∈ s.queue, tid ∈ s'.queue ∧ statusOf s' tid = statusOf s tid := by
  intro tid htid
  cases hs with
  | submit url =>
    constructor
    · simp only [process_video, List.mem_append]
      exact Or.inl htid
    · have hlt : tid ≠ s.nextId := by
        obtain ⟨t, ht, htid'⟩ := hI.queueSub tid htid
        exact htid' ▸ Nat.ne_of_lt (hI.idsLt t ht)
      have hsingle :
          findT [(⟨s.nextId, url, .pending, s.now, none, none, none⟩ :
            ProcessingTask R)] tid = none := by
        simp [findT, Ne.symm hlt]
      simp only [statusOf, process_video]
      rw [findT_append, hsingle, Option.or_none]
  | start => exact ⟨htid, rfl⟩
  | stop => exact ⟨htid, rfl⟩
  | dispatch hr hq => rw [hrun] at hr; cases hr
  | acquire tid' hw hsem =>
    have hne : tid ≠ tid' := fun he => hI.queueWaiting tid htid (he ▸ hw)
    constructor
    · exact htid
    · simp only [statusOf, acquireRun]
      rw [findT_updT s.tasks tid' tid procTask (fun t => rfl), if_neg hne]
  | finish tid' ha =>
    have hne : tid ≠ tid' := fun he => hI.queueActive tid htid (he ▸ ha)
    constructor
    · exact htid
    · simp only [statusOf, finishRun]
      rw [findT_updT s.tasks tid' tid (finishTask backend s.now)
        (finishTask_task_id backend s.now), if_neg hne]

theorem acquire_sets_processing {R : Type} {N : Nat}
    {s : ExecState R} {tid : Nat}
    (hI : Inv N s) (hw : tid ∈ s.waiting) :
    statusOf (acquireRun s tid) tid = some .processing := by
  have hsome : (findT s.tasks tid).isSome :=
    findT_isSome.mpr (hI.waitingSub tid hw)
  obtain ⟨u, hu⟩ := Option.isSome_iff_exists.mp hsome
  simp only [statusOf, acquireRun]
  rw [findT_updT s.tasks tid tid procTask (fun t => rfl), if_pos rfl, hu]
  rfl

theorem finish_sets_terminal {R : Type} {N : Nat}
    {backend : String → Except String R} {s : ExecState R} {tid : Nat}
    (hI : Inv N s) (ha : tid ∈ s.active) :
    statusOf (finishRun backend s tid) tid = some .completed ∨
      statusOf (finishRun backend s tid) tid = some .failed := by
  have hsome : (findT s.tasks tid).isSome :=
    findT_isSome.mpr (hI.activeSub tid ha)
  obtain ⟨u, hu⟩ := Option.isSome_iff_exists.mp hsome
  have hB : statusOf (finishRun backend s tid) tid =
      some ((finishTask backend s.now u).status) := by
    simp only [statusOf, finishRun]
    rw [findT_updT s.tasks tid tid (finishTask backend s.now)
      (finishTask_task_id backend s.now), if_pos rfl, hu]
    rfl
  rw [hB]
  rcases finishTask_status backend s.now u with hc | hf
  · exact Or.inl (by rw [hc])
  · exact Or.inr (by rw [hf])

theorem batchIdsSpec_length_le {V : Type}
    (step1 step2 : String → Except String V) :
    ∀ (urls : List String) (n : Nat),
      (batchIdsSpec step1 step2 n urls).length ≤ urls.length := by
  intro urls
  induction urls with
  | nil => intro n; exact Nat.le_refl _
  | cons url rest ih =>
    intro n
    rw [batchIdsSpec]
    cases stepsFail step1 step2 url with
    | true =>
      simp only [if_true, List.length_cons]
      exact Nat.le_succ_of_le (ih (n + 1))
    | false =>
      simp only [if_false, List.length_cons]
      exact Nat.succ_le_succ (ih (n + 1))

theorem hostInv_nodup {V : Type} {s : HostState V} (hInv : HostInv s) :
    (s.active_workflows.map (fun w => w.id)).Nodup := by
  rw [List.Nodup, List.pairwise_iff_getElem]
  intro i j hi hj hij
  rw [List.length_map] at hi hj
  rw [List.getElem_map, List.getElem_map]
  have hidi := hInv i hi
  have hidj := hInv j hj
  rw [List.get_eq_getElem] at hidi hidj
  rw [hidi, hidj]
  intro heq
  have := mkWorkflowId_injective heq
  omega

/-! # Claims -/

/-- C1 (counterexample): in `HostAgent.process_video_workflow` a failing step
does NOT get a `Failed` StepRecord appended.  For the code's own two-step run
with step 2 failing, the stored workflow has exactly one step record (the
`Completed` record of step 1, with `results` holding only its entry) and no
record with status `failed`; and for a three-step loop whose second step
fails, the `steps` sequence has length 1, not the claimed 2. -/
theorem c1_counterexample :
    ((process_video_workflow (fun _ => Except.ok (1 : Nat))
        (fun _ => Except.error "boom") ⟨[]⟩ "u").1.active_workflows.map
          (fun w => (w.status, w.error,
            w.steps.map (fun r => (r.name, r.status)), w.results.length)) =
      [(TStatus.failed, some "boom",
        [("video_processing", TStatus.completed)], 1)]) ∧
    (runStepsLoop "u" ⟨"workflow_1", "u", .processing, [], [], none⟩
        [("s1", "k1", fun _ => Except.ok (1 : Nat)),
         ("s2", "k2", fun _ => Except.error "boom"),
         ("s3", "k3", fun _ => Except.ok 3)]).1.steps.length = 1 ∧
    ¬ ((runStepsLoop "u" ⟨"workflow_1", "u", .processing, [], [], none⟩
        [("s1", "k1", fun _ => Except.ok (1 : Nat)),
         ("s2", "k2", fun _ => Except.error "boom"),
         ("s3", "k3", fun _ => Except.ok 3)]).1.steps.length = 2) := by
  refine ⟨rfl, rfl, by decide⟩

/-- C1 (amended): when a step of a workflow run fails, the orchestrator sets
`status = Failed` and `error` to the failing step's error, re-raises it, runs
no further steps (the outcome is independent of the steps after the failing
one), and keeps the already-appended `Completed` records and their results —
but it appends NO record for the failing step, so the stored `steps` sequence
holds exactly the records of the previously completed steps (length
`pre.length`, e.g. 1 rather than 2 for a 3-step workflow whose second step
fails), every appended record being `Completed`; `process_video_workflow`
stores exactly that record in its registry. -/
theorem c1_amended {V : Type} (url e nm ky : String)
    (f : String → Except String V) (hf : f url = .error e)
    (pre post : List (String × String × (String → Except String V)))
    (w : Workflow V) (hpre : ∀ p ∈ pre, ∃ v, p.2.2 url = Except.ok v)
    (step1 step2 : String → Except String V) (s : HostState V)
    (hInv : HostInv s) :
    ((runStepsLoop url w (pre ++ (nm, ky, f) :: post)).1.status = .failed ∧
     (runStepsLoop url w (pre ++ (nm, ky, f) :: post)).1.error = some e ∧
     (runStepsLoop url w (pre ++ (nm, ky, f) :: post)).2 = some e ∧
     (runStepsLoop url w (pre ++ (nm, ky, f) :: post)).1.steps.length =
       w.steps.length + pre.length ∧
     (runStepsLoop url w (pre ++ (nm, ky, f) :: post)).1.results.length =
       w.results.length + pre.length ∧
     (∀ r ∈ (runStepsLoop url w (pre ++ (nm, ky, f) :: post)).1.steps,
       r ∈ w.steps ∨ r.status = .completed) ∧
     (∀ post', runStepsLoop url w (pre ++ (nm, ky, f) :: post') =
       runStepsLoop url w (pre ++ (nm, ky, f) :: post))) ∧
    (process_video_workflow step1 step2 s url).1.active_workflows =
      s.active_workflows ++
        [(runStepsLoop url
            ⟨mkWorkflowId (s.active_workflows.length + 1), url, .processing,
              [], [], none⟩ (workflowSteps step1 step2)).1] :=
  ⟨runStepsLoop_fail url e nm ky f hf pre post w hpre,
   pvw_registry step1 step2 s url hInv⟩

/-- Witness for the amended C1 at a concrete 3-step run whose second step
fails: the stored `steps` sequence has length `0 + 1`. -/
theorem c1_amended_witness :
    (runStepsLoop "u"
        (⟨"workflow_1", "u", .processing, [], [], none⟩ : Workflow Nat)
        ([("s1", "k1", fun _ => Except.ok 1)] ++
          ("s2", "k2", fun _ => Except.error "boom") ::
            [("s3", "k3", fun _ => Except.ok 3)])).1.steps.length = 0 + 1 :=
  (c1_amended "u" "boom" "s2" "k2" (fun _ => Except.error "boom") rfl
    [("s1", "k1", fun _ => Except.ok 1)] [("s3", "k3", fun _ => Except.ok 3)]
    ⟨"workflow_1", "u", .processing, [], [], none⟩
    (by
      intro p hp
      rw [List.mem_singleton] at hp
      subst hp
      exact ⟨1, rfl⟩)
    (fun _ => Except.ok 1) (fun _ => Except.error "boom") ⟨[]⟩
    (fun i hi => absurd hi (by simp))).1.2.2.2.1

/-- C2 (counterexample): for `HostAgent.batch_process_videos` over the 3
inputs `["a", "bad", "c"]` where the 2nd causes a step failure, the returned
workflow-id list is `["workflow_1", "workflow_3"]` — length 2, not 3 — the
failed input's id is missing from it. -/
theorem c2_counterexample :
    (host_batch_process_videos
        (fun u => if u = "bad" then Except.error "boom"
          else Except.ok (1 : Nat))
        (fun _ => Except.ok 2) ⟨[]⟩ ["a", "bad", "c"]).2 =
      ["workflow_1", "workflow_3"] ∧
    ¬ ((host_batch_process_videos
        (fun u => if u = "bad" then Except.error "boom"
          else Except.ok (1 : Nat))
        (fun _ => Except.ok 2) ⟨[]⟩ ["a", "bad", "c"]).2.length = 3) := by
  refine ⟨rfl, ?_⟩
  intro hlen
  rw [show (host_batch_process_videos
      (fun u => if u = "bad" then Except.error "boom" else Except.ok (1 : Nat))
      (fun _ => Except.ok 2) ⟨[]⟩ ["a", "bad", "c"]).2 =
    ["workflow_1", "workflow_3"] from rfl] at hlen
  simp at hlen

/-- C2 (amended): `HostAgent.batch_process_videos` catches a failing run and
continues with the remaining inputs; every input's workflow record —
including failed ones — is registered (the registry grows by exactly one per
input and keeps its id invariant), but the returned id list contains exactly
the ids of the runs that did not raise, in input order (`batchIdsSpec`), so
its length is at most — not always equal to — the number of inputs. -/
theorem c2_amended {V : Type} (step1 step2 : String → Except String V)
    (urls : List String) (s : HostState V) (hInv : HostInv s) :
    (host_batch_process_videos step1 step2 s urls).1.active_workflows.length
        = s.active_workflows.length + urls.length ∧
    HostInv (host_batch_process_videos step1 step2 s urls).1 ∧
    (host_batch_process_videos step1 step2 s urls).2 =
      batchIdsSpec step1 step2 s.active_workflows.length urls ∧
    (host_batch_process_videos step1 step2 s urls).2.length ≤
      urls.length := by
  obtain ⟨h1, h2, h3⟩ := host_batch_spec step1 step2 urls s hInv
  refine ⟨h1, h2, h3, ?_⟩
  rw [h3]
  exact batchIdsSpec_length_le step1 step2 urls _

/-- Witness for the amended C2: the batch over 3 inputs registers `0 + 3`
workflow records. -/
theorem c2_amended_witness :
    (host_batch_process_videos
        (fun u => if u = "bad" then Except.error "boom"
          else Except.ok (1 : Nat))
        (fun _ => Except.ok 2) ⟨[]⟩
        ["a", "bad", "c"]).1.active_workflows.length = 0 + 3 :=
  (c2_amended
    (fun u => if u = "bad" then Except.error "boom" else Except.ok (1 : Nat))
    (fun _ => Except.ok 2) ["a", "bad", "c"] ⟨[]⟩
    (fun i hi => absurd hi (by simp))).1

/-- C3 (counterexample): a malformed input is NOT rejected synchronously at
submit time: `_extract_video_id` rejects `"not-a-url"` with the
`Invalid YouTube URL` error, yet submitting it through
`VideoAgentExecutor.process_video` creates a task record that enters the
`Pending` state. -/
theorem c3_counterexample :
    extract_video_id "not-a-url" =
      Except.error "Invalid YouTube URL: not-a-url" ∧
    statusOf (process_video (initState VideoProcessingResult 3) "not-a-url").1
      (process_video (initState VideoProcessingResult 3) "not-a-url").2 =
      some .pending :=
  ⟨by decide, rfl⟩

/-- C3 (amended): submission performs no validation — for every input, valid
or not, `process_video` admits a `Pending` task.  A URL that the code's own
`_extract_video_id` rejects fails only inside the backend call
(`VideoAgent.process_video` raises the `Invalid YouTube URL` error before any
network call), so the worker that executes the task records it as `Failed`
with that error. -/
theorem c3_amended {R : Type} (backend : String → Except String R) (N : Nat)
    (s : ExecState R) (url e : String)
    (meta : String → Except String VideoMetadata) (trans : String → String)
    (hreach : Reachable backend N s)
    (hbad : extract_video_id url = .error e) :
    statusOf (process_video s url).1 (process_video s url).2 =
      some .pending ∧
    agent_process_video meta trans url = .error e ∧
    (∀ (nowv : Nat) (t : ProcessingTask VideoProcessingResult),
      t.video_url = url →
      finishTask (agent_process_video meta trans) nowv t =
        { t with status := .failed, completed_at := some nowv,
                 error := some e }) := by
  have hagent : agent_process_video meta trans url = .error e := by
    simp only [agent_process_video, hbad]
  refine ⟨?_, hagent, ?_⟩
  · have hq := (process_video_spec s url (reachable_inv hreach).idsLt).1
    rw [statusOf, show findT (process_video s url).1.tasks
      (process_video s url).2 = get_task_status (process_video s url).1
        (process_video s url).2 from rfl, hq]
    rfl
  · intro nowv t ht
    have hb : agent_process_video meta trans t.video_url = .error e := by
      rw [ht]
      exact hagent
    simp only [finishTask, hb]

/-- Witness for the amended C3 at `"not-a-url"`. -/
theorem c3_amended_witness :
    agent_process_video (fun _ => Except.error "no-metadata") (fun _ => "")
      "not-a-url" = Except.error "Invalid YouTube URL: not-a-url" :=
  (c3_amended (fun _ => Except.ok "r") 3 (initState String 3) "not-a-url"
    "Invalid YouTube URL: not-a-url" (fun _ => Except.error "no-metadata")
    (fun _ => "") Relation.ReflTransGen.refl (by decide)).2.1

/-- C4: in every reachable state of an executor configured with concurrency
bound `N`, at most `N` stored tasks have status `Processing`
(`get_active_tasks_count ≤ N`): a worker marks its task `processing` only in
the same atomic step in which it acquires one of the `N` semaphore permits,
and the permit is released only in the step that moves the task to a terminal
status, so the permit count always accounts for every `Processing` task. -/
theorem c4_concurrency_bound {R : Type} (backend : String → Except String R)
    (N : Nat) (s : ExecState R) (h : Reachable backend N s) :
    get_active_tasks_count s ≤ N :=
  count_processing_le (reachable_inv h)

/-- Witness for C4 on a concrete reachable state of a bound-1 executor with
one task processing. -/
theorem c4_witness :
    get_active_tasks_count
      (acquireRun (dispatchRun
        (process_video (startRun (initState String 1)) "u").1) 0) ≤ 1 := by
  apply c4_concurrency_bound (fun _ => Except.ok "r") 1
  have h0 : Reachable (fun _ => Except.ok "r") 1 (initState String 1) :=
    Relation.ReflTransGen.refl
  have h1 := Relation.ReflTransGen.tail h0 (Step.start _)
  have h2 := Relation.ReflTransGen.tail h1 (Step.submit _ "u")
  have h3 := Relation.ReflTransGen.tail h2 (Step.dispatch _ rfl (by decide))
  exact Relation.ReflTransGen.tail h3 (Step.acquire _ 0 (by decide) (by decide))

/-- C5 (counterexample): after `stop()` returns, a task can still transition
from `Pending` to `Processing`.  The executor reaches a stopped state
(`running = false`, reachable via start, submit, dispatch, stop) in which
task `0` — already handed to a worker that has not yet acquired a permit — is
still `Pending`, and one further step allowed by the semantics (the worker's
permit acquisition, which `stop` neither awaits nor cancels) makes it
`Processing`. -/
theorem c5_counterexample :
    Reachable (fun _ => Except.ok "r") 3
      (stopRun (dispatchRun
        (process_video (startRun (initState String 3)) "u").1)) ∧
    (stopRun (dispatchRun
      (process_video (startRun (initState String 3)) "u").1)).running =
        false ∧
    statusOf (stopRun (dispatchRun
      (process_video (startRun (initState String 3)) "u").1)) 0 =
        some .pending ∧
    Step (fun _ => Except.ok "r")
      (stopRun (dispatchRun
        (process_video (startRun (initState String 3)) "u").1))
      (acquireRun (stopRun (dispatchRun
        (process_video (startRun (initState String 3)) "u").1)) 0) ∧
    statusOf (acquireRun (stopRun (dispatchRun
      (process_video (startRun (initState String 3)) "u").1)) 0) 0 =
        some .processing := by
  refine ⟨?_, rfl, rfl, ?_, rfl⟩
  · have h0 : Reachable (fun _ => Except.ok "r") 3 (initState String 3) :=
      Relation.ReflTransGen.refl
    have h1 := Relation.ReflTransGen.tail h0 (Step.start _)
    have h2 := Relation.ReflTransGen.tail h1 (Step.submit _ "u")
    have h3 := Relation.ReflTransGen.tail h2 (Step.dispatch _ rfl (by decide))
    exact Relation.ReflTransGen.tail h3 (Step.stop _)
  · exact Step.acquire _ 0 (by decide) (by decide)

/-- C5 (amended): after `stop()` returns (and until a subsequent `start()`),
no task is dequeued from the admission queue — every queued task stays queued
with its status unchanged by any single step — and `submit` still enqueues;
but `stop` does not wait for or cancel worker coroutines already spawned by
the dispatcher: a worker still waiting for a permit may yet move its task
from `Pending` to `Processing`, and a `Processing` task may still reach a
terminal status. -/
theorem c5_amended {R : Type} (backend : String → Except String R) (N : Nat) :
    (∀ s s' : ExecState R, Reachable backend N s → s.running = false →
      Step backend s s' →
      ∀ tid ∈ s.queue, tid ∈ s'.queue ∧ statusOf s' tid = statusOf s tid) ∧
    (∀ (s : ExecState R) (url : String),
      Step backend s (process_video s url).1) ∧
    (∀ (s : ExecState R) (tid : Nat), Reachable backend N s →
      tid ∈ s.waiting → 0 < s.sem →
      Step backend s (acquireRun s tid) ∧
        statusOf (acquireRun s tid) tid = some .processing) ∧
    (∀ (s : ExecState R) (tid : Nat), Reachable backend N s →
      tid ∈ s.active →
      Step backend s (finishRun backend s tid) ∧
        (statusOf (finishRun backend s tid) tid = some .completed ∨
         statusOf (finishRun backend s tid) tid = some .failed)) := by
  refine ⟨?_, ?_, ?_, ?_⟩
  · intro s s' hreach hrun hs
    exact stopped_step_queue (reachable_inv hreach) hrun hs
  · intro s url
    exact Step.submit s url
  · intro s tid hreach hw hsem
    exact ⟨Step.acquire s tid hw hsem,
      acquire_sets_processing (reachable_inv hreach) hw⟩
  · intro s tid hreach ha
    exact ⟨Step.finish s tid ha,
      finish_sets_terminal (reachable_inv hreach) ha⟩

/-- Witness for the amended C5: in the concrete stopped state with a spawned
worker, the permit-acquisition step exists and makes task `0`
`Processing`. -/
theorem c5_amended_witness :
    Step (fun _ => Except.ok "r")
      (stopRun (dispatchRun
        (process_video (startRun (initState String 3)) "u").1))
      (acquireRun (stopRun (dispatchRun
        (process_video (startRun (initState String 3)) "u").1)) 0) ∧
    statusOf (acquireRun (stopRun (dispatchRun
      (process_video (startRun (initState String 3)) "u").1)) 0) 0 =
      some .processing := by
  apply (c5_amended (fun _ => Except.ok "r") 3).2.2.1 _ 0 ?_ (by decide)
    (by decide)
  have h0 : Reachable (fun _ => Except.ok "r") 3 (initState String 3) :=
    Relation.ReflTransGen.refl
  have h1 := Relation.ReflTransGen.tail h0 (Step.start _)
  have h2 := Relation.ReflTransGen.tail h1 (Step.submit _ "u")
  have h3 := Relation.ReflTransGen.tail h2 (Step.dispatch _ rfl (by decide))
  exact Relation.ReflTransGen.tail h3 (Step.stop _)

/-- C6: along every execution trace of the executor, each task's observed
status history is a block of `Pending`, then a block of `Processing`, then a
block of one terminal status (stuttering reflects that a status persists
between the steps that mutate it), and its destuttered form is literally a
subsequence (`List.Sublist`) of `[Pending, Processing, Completed]` or of
`[Pending, Processing, Failed]`: no transition skips `Processing`, none
leaves a terminal state, and no task regresses. -/
theorem c6_monotonic_lifecycle {R : Type} (backend : String → Except String R)
    (N : Nat) (tr : List (ExecState R)) (h : RTrace backend N tr)
    (tid : Nat) :
    (∃ a b c last, (last = TStatus.completed ∨ last = TStatus.failed) ∧
      obsOf tr tid = List.replicate a .pending ++
        List.replicate b .processing ++ List.replicate c last) ∧
    (List.Sublist ((obsOf tr tid).destutter (· ≠ ·))
        [TStatus.pending, .processing, .completed] ∨
     List.Sublist ((obsOf tr tid).destutter (· ≠ ·))
        [TStatus.pending, .processing, .failed]) := by
  have hcons : ∃ s rest, tr = s :: rest := by
    cases h with
    | init => exact ⟨_, _, rfl⟩
    | step tr hs => exact ⟨_, _, rfl⟩
  obtain ⟨s, rest, rfl⟩ := hcons
  obtain ⟨a, b, c, last, hlast, hobs⟩ :=
    goodObs_decomp (rtrace_goodObs h tid s rest rfl)
  refine ⟨⟨a, b, c, last, hlast, hobs⟩, ?_⟩
  rw [hobs]
  rcases hlast with h1 | h1
  · subst h1
    exact Or.inl (destutter_canon a b c _ (by decide) (by decide))
  · subst h1
    exact Or.inr (destutter_canon a b c _ (by decide) (by decide))

/-- Witness for C6 on a concrete five-step trace that takes task `0` from
submission to completion. -/
theorem c6_witness :
    List.Sublist ((obsOf
        [finishRun (fun _ => Except.ok "r")
          (acquireRun (dispatchRun
            (process_video (startRun (initState String 1)) "a").1) 0) 0,
         acquireRun (dispatchRun
           (process_video (startRun (initState String 1)) "a").1) 0,
         dispatchRun (process_video (startRun (initState String 1)) "a").1,
         (process_video (startRun (initState String 1)) "a").1,
         startRun (initState String 1),
         initState String 1] 0).destutter (· ≠ ·))
      [TStatus.pending, .processing, .completed] ∨
    List.Sublist ((obsOf
        [finishRun (fun _ => Except.ok "r")
          (acquireRun (dispatchRun
            (process_video (startRun (initState String 1)) "a").1) 0) 0,
         acquireRun (dispatchRun
           (process_video (startRun (initState String 1)) "a").1) 0,
         dispatchRun (process_video (startRun (initState String 1)) "a").1,
         (process_video (startRun (initState String 1)) "a").1,
         startRun (initState String 1),
         initState String 1] 0).destutter (· ≠ ·))
      [TStatus.pending, .processing, .failed] :=
  (c6_monotonic_lifecycle (fun _ => Except.ok "r") 1 _
    (RTrace.step (RTrace.step (RTrace.step (RTrace.step
      (RTrace.step RTrace.init (Step.start _)) (Step.submit _ "a"))
      (Step.dispatch _ rfl (by decide)))
      (Step.acquire _ 0 (by decide) (by decide)))
      (Step.finish _ 0 (by decide))) 0).2

/-- C7: in every reachable executor state, every stored task has `result`
present iff its status is `Completed` and `error` present iff its status is
`Failed`; the two are never both present, and both are absent while the task
is `Pending` or `Processing`. -/
theorem c7_result_error_iff {R : Type} (backend : String → Except String R)
    (N : Nat) (s : ExecState R) (h : Reachable backend N s) :
    ∀ t ∈ get_all_tasks s,
      (t.result.isSome ↔ t.status = .completed) ∧
      (t.error.isSome ↔ t.status = .failed) ∧
      ¬(t.result.isSome ∧ t.error.isSome) ∧
      ((t.status = .pending ∨ t.status = .processing) →
        t.result = none ∧ t.error = none) := by
  have hI := reachable_inv h
  intro t ht
  refine ⟨hI.resultIff t ht, hI.errorIff t ht, ?_, ?_⟩
  · rintro ⟨hr, he⟩
    rw [hI.resultIff t ht] at hr
    rw [hI.errorIff t ht] at he
    rw [hr] at he
    cases he
  · intro hst
    constructor
    · cases hr : t.result with
      | none => rfl
      | some v =>
        have h2 := (hI.resultIff t ht).mp (by rw [hr]; rfl)
        rcases hst with h1 | h1 <;> rw [h1] at h2 <;> cases h2
    · cases he : t.error with
      | none => rfl
      | some v =>
        have h2 := (hI.errorIff t ht).mp (by rw [he]; rfl)
        rcases hst with h1 | h1 <;> rw [h1] at h2 <;> cases h2

/-- Witness for C7 at the completed task of a concrete executed trace. -/
theorem c7_witness :
    (((⟨0, "a", TStatus.completed, 0, some 1, some "r", none⟩ :
        ProcessingTask String).result.isSome ↔
      (⟨0, "a", TStatus.completed, 0, some 1, some "r", none⟩ :
        ProcessingTask String).status = .completed) ∧
     ((⟨0, "a", TStatus.completed, 0, some 1, some "r", none⟩ :
        ProcessingTask String).error.isSome ↔
      (⟨0, "a", TStatus.completed, 0, some 1, some "r", none⟩ :
        ProcessingTask String).status = .failed) ∧
     ¬((⟨0, "a", TStatus.completed, 0, some 1, some "r", none⟩ :
        ProcessingTask String).result.isSome ∧
       (⟨0, "a", TStatus.completed, 0, some 1, some "r", none⟩ :
        ProcessingTask String).error.isSome) ∧
     (((⟨0, "a", TStatus.completed, 0, some 1, some "r", none⟩ :
        ProcessingTask String).status = .pending ∨
       (⟨0, "a", TStatus.completed, 0, some 1, some "r", none⟩ :
        ProcessingTask String).status = .processing) →
       (⟨0, "a", TStatus.completed, 0, some 1, some "r", none⟩ :
        ProcessingTask String).result = none ∧
       (⟨0, "a", TStatus.completed, 0, some 1, some "r", none⟩ :
        ProcessingTask String).error = none)) := by
  apply c7_result_error_iff (fun _ => Except.ok "r") 1
    (finishRun (fun _ => Except.ok "r")
      (acquireRun (dispatchRun
        (process_video (startRun (initState String 1)) "a").1) 0) 0) ?_
    _ (by decide)
  have h0 : Reachable (fun _ => Except.ok "r") 1 (initState String 1) :=
    Relation.ReflTransGen.refl
  have h1 := Relation.ReflTransGen.tail h0 (Step.start _)
  have h2 := Relation.ReflTransGen.tail h1 (Step.submit _ "a")
  have h3 := Relation.ReflTransGen.tail h2 (Step.dispatch _ rfl (by decide))
  have h4 := Relation.ReflTransGen.tail h3
    (Step.acquire _ 0 (by decide) (by decide))
  exact Relation.ReflTransGen.tail h4 (Step.finish _ 0 (by decide))

/-- C8: in every reachable state, `process_video` (submit) builds a task with
a fresh id — distinct from every stored task's id — and status `Pending`,
stores it (so `get_task_status` with the returned id immediately succeeds
with that `Pending` task), appends its id to the admission queue, and returns
the id; it is a total function that touches neither the workers, the
semaphore, nor the running flag, so it never blocks on execution and never
fails. -/
theorem c8_submit {R : Type} (backend : String → Except String R) (N : Nat)
    (s : ExecState R) (url : String) (h : Reachable backend N s) :
    get_task_status (process_video s url).1 (process_video s url).2 =
      some ⟨s.nextId, url, .pending, s.now, none, none, none⟩ ∧
    (∀ t ∈ s.tasks, t.task_id ≠ (process_video s url).2) ∧
    (process_video s url).1.tasks =
      s.tasks ++ [⟨s.nextId, url, .pending, s.now, none, none, none⟩] ∧
    (process_video s url).1.queue = s.queue ++ [(process_video s url).2] ∧
    (process_video s url).1.sem = s.sem ∧
    (process_video s url).1.waiting = s.waiting ∧
    (process_video s url).1.active = s.active ∧
    (process_video s url).1.running = s.running :=
  process_video_spec s url (reachable_inv h).idsLt

/-- Witness for C8 at the fresh executor. -/
theorem c8_witness :
    get_task_status (process_video (initState String 3) "u").1
      (process_video (initState String 3) "u").2 =
      some ⟨0, "u", .pending, 0, none, none, none⟩ :=
  (c8_submit (fun _ => Except.ok "r") 3 (initState String 3) "u"
    Relation.ReflTransGen.refl).1

/-- C9: on a single executor instance every issued task id is distinct from
every other (the task store, which retains every task ever issued, never
holds two tasks with the same id in any reachable state), and on a single
host-agent instance every issued workflow id is distinct from every other
(the registry, whose `k`-th record always has id `workflow_{k+1}` because
ids are derived from the registry size, records never leave it, and each run
inserts its record before another id is generated, never holds a duplicate
id). -/
theorem c9_unique_ids :
    (∀ (R : Type) (backend : String → Except String R) (N : Nat)
      (s : ExecState R), Reachable backend N s →
        (s.tasks.map (fun t => t.task_id)).Nodup) ∧
    (∀ (V : Type) (step1 step2 : String → Except String V)
      (s : HostState V), HostReach step1 step2 s →
        (s.active_workflows.map (fun w => w.id)).Nodup) :=
  ⟨fun _ _ _ _ h => (reachable_inv h).idsNodup,
   fun _ _ _ _ h => hostInv_nodup (hostReach_inv h)⟩

/-- Witness for C9: two executor submissions yield distinct task ids, and two
workflow runs yield distinct workflow ids. -/
theorem c9_witness :
    ((process_video (process_video (initState String 3) "a").1 "b").1.tasks.map
      (fun t => t.task_id)).Nodup ∧
    ((process_video_workflow (fun _ => Except.ok (1 : Nat))
        (fun _ => Except.ok 2)
        (process_video_workflow (fun _ => Except.ok 1) (fun _ => Except.ok 2)
          ⟨[]⟩ "a").1 "b").1.active_workflows.map
      (fun w => w.id)).Nodup := by
  constructor
  · apply c9_unique_ids.1 String (fun _ => Except.ok "r") 3
    exact Relation.ReflTransGen.tail
      (Relation.ReflTransGen.tail Relation.ReflTransGen.refl
        (Step.submit _ "a")) (Step.submit _ "b")
  · apply c9_unique_ids.2 Nat (fun _ => Except.ok 1) (fun _ => Except.ok 2)
    exact HostReach.run "b" (HostReach.run "a" HostReach.init)

/-- C10: the executor's batch submission (`batch_process_videos`) returns one
task id per input URL, in input order: the returned list has the same length
as the input list, the id at position `i` is the id `submit` returned for the
`i`-th URL (the `i`-th fresh id), and the task stored under that id is the
`Pending` task for the `i`-th URL — no input is skipped. -/
theorem c10_batch_submit {R : Type} (backend : String → Except String R)
    (N : Nat) (s : ExecState R) (urls : List String)
    (h : Reachable backend N s) :
    (batch_process_videos s urls).2.length = urls.length ∧
    (∀ i, i < urls.length →
      (batch_process_videos s urls).2.getD i 0 = s.nextId + i) ∧
    (∀ i, i < urls.length →
      (findT (batch_process_videos s urls).1.tasks (s.nextId + i)).map
        (fun t => (t.video_url, t.status)) =
        some (urls.getD i "", TStatus.pending)) := by
  obtain ⟨h1, _, _, h4, h5⟩ := batch_spec urls s (reachable_inv h).idsLt
  exact ⟨h1, h4, h5⟩

/-- Witness for C10 at the fresh executor with two URLs. -/
theorem c10_witness :
    (batch_process_videos (initState String 3) ["a", "b"]).2.length = 2 ∧
    (batch_process_videos (initState String 3) ["a", "b"]).2.getD 1 0 =
      0 + 1 ∧
    (findT (batch_process_videos (initState String 3) ["a", "b"]).1.tasks
      (0 + 1)).map (fun t => (t.video_url, t.status)) =
      some ("b", TStatus.pending) := by
  obtain ⟨h1, h2, h3⟩ := c10_batch_submit (fun _ => Except.ok "r") 3
    (initState String 3) ["a", "b"] Relation.ReflTransGen.refl
  exact ⟨h1, h2 1 (by decide), h3 1 (by decide)⟩

end VAS
